import Mathlib

/-!
# A* grid path search (`source/AStar.hpp`, `source/AStar.cpp`)

Shallow embedding of the path generator and proofs about it.

Modelling conventions.

* `int` coordinates are `Int`: signed overflow is undefined behaviour in C++,
  so the source itself gives no meaning to the executions in which a
  coordinate leaves the machine range.
* `unsigned int` costs are `Nat`.  `unsigned int` addition wraps modulo
  `2 ^ 32`; `findPath` is modelled for the executions in which no sum `G + H`
  reaches `2 ^ 32`.  `Node.getScore32`, `scanOpen32` and `turn32` are the score,
  the scan and one turn of the loop as the machine computes them; they agree
  with `Node.getScore`, `scanOpen` and `turn` as long as every score of the
  open set stays below `2 ^ 32`.
* A `Node*` is an address, a natural number; `nullptr` is `none`.  The nodes
  created with `new` live in `Search.heap`, a map from addresses to node values,
  and `Search.next` is the next fresh address.  Writing through a pointer is an
  update of the heap at that address.
* `openSet` and `closedSet` are lists of addresses, in vector order.  An
  iterator into `openSet` is a position.
* The two `while` loops take a fuel argument and answer `none` when it runs
  out; `Returns` says what `findPath` returns once the fuel suffices.
* `releaseNodes` only frees memory after the result has been computed and is
  left out.
* `Heuristic.euclideanDouble` follows `Heuristic::euclidean` through the
  roundings of double arithmetic.  `Heuristic.euclidean` is its idealisation
  with an exact square root, the integer square root of `100 * (dx^2 + dy^2)`;
  the two agree as long as `dx^2 + dy^2 < 2^44`, so between any two cells of a
  world at most `2^21` wide and high.
-/

set_option autoImplicit false

namespace AStar

/-! ## Coordinates -/

/-- The struct `Vec2i`.  The component-wise `operator ==` of the source is
structural equality. -/
structure Vec2i where
  x : Int
  y : Int
deriving DecidableEq, Repr

/-- The friend `operator +` of `Vec2i`. -/
instance : Add Vec2i := ⟨fun left right => ⟨left.x + right.x, left.y + right.y⟩⟩

/-! ## Heuristics -/

namespace Heuristic

/-- `Heuristic::getDelta`. -/
def getDelta (source target : Vec2i) : Vec2i :=
  ⟨|source.x - target.x|, |source.y - target.y|⟩

/-- `Heuristic::manhattan`. -/
def manhattan (source target : Vec2i) : Nat :=
  let delta := getDelta source target
  (10 * (delta.x + delta.y)).toNat

/-- Integer square root by upward search; `isqrtGo n fuel r` assumes `r * r ≤ n`. -/
def isqrtGo (n : Nat) : Nat → Nat → Nat
  | 0, r => r
  | fuel + 1, r => if (r + 1) * (r + 1) ≤ n then isqrtGo n fuel (r + 1) else r

/-- Floor of the real square root. -/
def isqrt (n : Nat) : Nat := isqrtGo n n 0

/-- `Heuristic::euclidean` idealised, with an exact square root: the floor of
`10 * sqrt(dx^2 + dy^2)`.  What the source computes is `euclideanDouble`. -/
def euclidean (source target : Vec2i) : Nat :=
  let delta := getDelta source target
  isqrt (100 * (delta.x ^ 2 + delta.y ^ 2).toNat)

/-- Integer square root, bit by bit: `sqrtBits n b r` assumes
`r * r ≤ n < (r + 2 ^ b) * (r + 2 ^ b)` and settles the `b` low bits of the root. -/
def sqrtBits (n : Nat) : Nat → Nat → Nat
  | 0, r => r
  | b + 1, r =>
    if (r + 2 ^ b) * (r + 2 ^ b) ≤ n then sqrtBits n b (r + 2 ^ b) else sqrtBits n b r

/-- The number of binary digits of `n`, within `fuel` steps. -/
def bitsGo : Nat → Nat → Nat
  | 0, _ => 0
  | fuel + 1, n => if n = 0 then 0 else bitsGo fuel (n / 2) + 1

/-- The number of binary digits of `n`. -/
def bits (n : Nat) : Nat := bitsGo n n

/-- The IEEE 754 double nearest to the natural number `n`, ties to even: `n`
rounded to 53 significant bits (the range of the exponent is not modelled). -/
def roundDouble (n : Nat) : Nat :=
  let e := bits n - 53
  let q := n / 2 ^ e
  let r := n % 2 ^ e
  if 2 ^ e < 2 * r ∨ (2 ^ e = 2 * r ∧ q % 2 = 1) then (q + 1) * 2 ^ e else q * 2 ^ e

/-- `sqrt` on a double of integer value `n < 2 ^ 106`: the pair `(m, f)` stands
for the double `m / 2 ^ f` nearest to the real square root of `n`.  The root
lies in `[2 ^ j, 2 ^ (j + 1))` for `j = (bits n - 1) / 2`, so with `f = 52 - j`
the doubles there are the multiples of `2 ^ (-f)`; a square root is never
half-way between two of them. -/
def sqrtDouble (n : Nat) : Nat × Nat :=
  let f := 52 - (bits n - 1) / 2
  let x := n * 2 ^ (2 * f)
  let s := sqrtBits x 53 0
  (if s < x - s * s then s + 1 else s, f)

/-- `Heuristic::euclidean` in double arithmetic, as the source computes it:
`pow(delta.x, 2) + pow(delta.y, 2)`, `sqrt`, the product with `10`, each
rounded to the nearest double, then the conversion to `uint`, which drops the
fraction. -/
def euclideanDouble (source target : Vec2i) : Nat :=
  let delta := getDelta source target
  let n := roundDouble (roundDouble (delta.x ^ 2).toNat + roundDouble (delta.y ^ 2).toNat)
  let r := sqrtDouble n
  roundDouble (10 * r.1) / 2 ^ r.2

/-- `Heuristic::octagonal`. -/
def octagonal (source target : Vec2i) : Nat :=
  let delta := getDelta source target
  (10 * (delta.x + delta.y) + (-6) * min delta.x delta.y).toNat

end Heuristic

/-! ## Nodes and the generator -/

/-- The struct `Node`; `parent` is a pointer. -/
structure Node where
  G : Nat
  H : Nat
  coordinates : Vec2i
  parent : Option Nat
deriving DecidableEq, Repr

/-- The constructor `Node::Node(coordinates_, parent_)`: both costs start at 0. -/
def Node.new (coordinates : Vec2i) (parent : Option Nat) : Node :=
  { G := 0, H := 0, coordinates := coordinates, parent := parent }

/-- `Node::getScore` as long as the sum stays below `2 ^ 32`. -/
def Node.getScore (n : Node) : Nat := n.G + n.H

/-- `Node::getScore` in `unsigned int` arithmetic: the sum `G + H` wraps
modulo `2 ^ 32`. -/
def Node.getScore32 (n : Node) : Nat := (n.G + n.H) % 2 ^ 32

/-- The private state of the class `Generator`. -/
structure Generator where
  heuristic : Vec2i → Vec2i → Nat
  direction : List Vec2i
  walls : List Vec2i
  worldSize : Vec2i
  directions : Nat

/-- The eight offsets the constructor stores in `direction`. -/
def directionTable : List Vec2i :=
  [⟨0, 1⟩, ⟨1, 0⟩, ⟨0, -1⟩, ⟨-1, 0⟩, ⟨-1, -1⟩, ⟨1, 1⟩, ⟨-1, 1⟩, ⟨1, -1⟩]

namespace Generator

/-- `Generator::setWorldSize`. -/
def setWorldSize (g : Generator) (worldSize : Vec2i) : Generator :=
  { g with worldSize := worldSize }

/-- `Generator::setDiagonalMovement`. -/
def setDiagonalMovement (g : Generator) (enable : Bool) : Generator :=
  { g with directions := if enable then 8 else 4 }

/-- `Generator::setHeuristic`. -/
def setHeuristic (g : Generator) (heuristic : Vec2i → Vec2i → Nat) : Generator :=
  { g with heuristic := heuristic }

/-- `Generator::addCollision`. -/
def addCollision (g : Generator) (coordinates : Vec2i) : Generator :=
  { g with walls := g.walls ++ [coordinates] }

/-- `Generator::removeCollision`: erases the first wall equal to the argument. -/
def removeCollision (g : Generator) (coordinates : Vec2i) : Generator :=
  { g with walls := g.walls.erase coordinates }

/-- `Generator::clearCollisions`. -/
def clearCollisions (g : Generator) : Generator :=
  { g with walls := [] }

/-- The constructor `Generator::Generator()`.  It leaves `worldSize`
uninitialised; the argument stands for that indeterminate value. -/
def new (worldSize₀ : Vec2i) : Generator :=
  { heuristic := Heuristic.manhattan
    direction := directionTable
    walls := []
    worldSize := worldSize₀
    directions := 4 }

/-- `direction[i]`. -/
def dir (g : Generator) (i : Nat) : Vec2i := g.direction.getD i ⟨0, 0⟩

/-- `Generator::detectCollision`. -/
def detectCollision (g : Generator) (coordinates : Vec2i) : Bool :=
  decide (coordinates.x < 0) || decide (coordinates.x ≥ g.worldSize.x) ||
  decide (coordinates.y < 0) || decide (coordinates.y ≥ g.worldSize.y) ||
  g.walls.contains coordinates

end Generator

/-- A generator as a caller sets it up: constructed, then given a world size,
a movement mode, a heuristic and its obstacles, one `addCollision` each. -/
def configure (width height : Int) (diagonal : Bool) (heuristic : Vec2i → Vec2i → Nat)
    (obstacles : List Vec2i) : Generator :=
  obstacles.foldl Generator.addCollision
    ((((Generator.new ⟨0, 0⟩).setWorldSize ⟨width, height⟩).setDiagonalMovement
      diagonal).setHeuristic heuristic)

/-! ## The search -/

/-- The local state of `findPath`, with the memory that holds its nodes. -/
structure Search where
  heap : Nat → Node
  next : Nat
  openSet : List Nat
  closedSet : List Nat
  current : Option Nat

/-- `Generator::findNodeOnList`: the first node of the list at the coordinates. -/
def findNodeOnList (heap : Nat → Node) (nodes : List Nat) (coordinates : Vec2i) : Option Nat :=
  nodes.find? (fun node => decide ((heap node).coordinates = coordinates))

/-- The scan of `openSet` (lines 100 to 108): `it` is the position of the head
of the list still to be scanned, the pair is `current` and `current_it`. -/
def scanOpen (heap : Nat → Node) : List Nat → Nat → Nat × Nat → Nat × Nat
  | [], _, best => best
  | node :: rest, it, best =>
    if (heap node).getScore ≤ (heap best.1).getScore then scanOpen heap rest (it + 1) (node, it)
    else scanOpen heap rest (it + 1) best

/-- The scan of `openSet` (lines 100 to 108) on the scores of the machine. -/
def scanOpen32 (heap : Nat → Node) : List Nat → Nat → Nat × Nat → Nat × Nat
  | [], _, best => best
  | node :: rest, it, best =>
    if (heap node).getScore32 ≤ (heap best.1).getScore32 then
      scanOpen32 heap rest (it + 1) (node, it)
    else scanOpen32 heap rest (it + 1) best

/-- The cost of a move along `direction[i]`. -/
def moveCost (i : Nat) : Nat := if i < 4 then 10 else 14

/-- One pass of the body of the `for` loop over the directions (lines 120 to 143). -/
def visit (g : Generator) (target : Vec2i) (current : Nat) (s : Search) (i : Nat) : Search :=
  let newCoordinates := (s.heap current).coordinates + g.dir i
  if g.detectCollision newCoordinates ||
      (findNodeOnList s.heap s.closedSet newCoordinates).isSome then s
  else
    let totalCost := (s.heap current).G + moveCost i
    match findNodeOnList s.heap s.openSet newCoordinates with
    | none =>
      let successor : Node :=
        { Node.new newCoordinates (some current) with
          G := totalCost, H := g.heuristic newCoordinates target }
      { s with
        heap := Function.update s.heap s.next successor
        next := s.next + 1
        openSet := s.openSet ++ [s.next] }
    | some successor =>
      if totalCost < (s.heap successor).G then
        { s with
          heap := Function.update s.heap successor
            { s.heap successor with parent := some current, G := totalCost } }
      else s

/-- The `for` loop over the active directions (lines 119 to 144). -/
def expand (g : Generator) (target : Vec2i) (current : Nat) (s : Search) : Search :=
  (List.range g.directions).foldl (visit g target current) s

/-- What one turn of the `while` loop does. -/
inductive Turn where
  | exit (s : Search)
  | again (s : Search)

/-- One evaluation of the loop condition and, if it holds, of the loop body
(lines 93 to 145). -/
def turn (g : Generator) (target : Vec2i) (s : Search) : Turn :=
  match s.openSet with
  | [] => .exit s
  | first :: _ =>
    let best := scanOpen s.heap s.openSet 0 (first, 0)
    if (s.heap best.1).coordinates = target then .exit { s with current := some best.1 }
    else
      .again (expand g target best.1
        { s with
          current := some best.1
          closedSet := s.closedSet ++ [best.1]
          openSet := s.openSet.eraseIdx best.2 })

/-- One evaluation of the loop condition and, if it holds, of the loop body
(lines 93 to 145), the scan comparing the scores of the machine. -/
def turn32 (g : Generator) (target : Vec2i) (s : Search) : Turn :=
  match s.openSet with
  | [] => .exit s
  | first :: _ =>
    let best := scanOpen32 s.heap s.openSet 0 (first, 0)
    if (s.heap best.1).coordinates = target then .exit { s with current := some best.1 }
    else
      .again (expand g target best.1
        { s with
          current := some best.1
          closedSet := s.closedSet ++ [best.1]
          openSet := s.openSet.eraseIdx best.2 })

/-- The state a turn leaves. -/
def Turn.state : Turn → Search
  | .exit s => s
  | .again s => s

/-- The `while` loop of the search; `none` when the fuel runs out. -/
def searchLoop (g : Generator) (target : Vec2i) : Nat → Search → Option Search
  | 0, _ => none
  | fuel + 1, s =>
    match turn g target s with
    | .exit s' => some s'
    | .again s' => searchLoop g target fuel s'

/-- The loop that follows the `parent` pointers (lines 149 to 152). -/
def reconstruct (heap : Nat → Node) : Nat → Option Nat → Option (List Vec2i)
  | _, none => some []
  | 0, some _ => none
  | fuel + 1, some current =>
    (reconstruct heap fuel (heap current).parent).map ((heap current).coordinates :: ·)

/-- The state before the first turn of the loop: the start node is at
address 0 and is the only element of `openSet`.  Addresses not yet handed out
by `new` are never read; the map gives them the value of the start node. -/
def initial (source : Vec2i) : Search :=
  { heap := fun _ => Node.new source none
    next := 1
    openSet := [0]
    closedSet := []
    current := none }

/-- `Generator::findPath`, each of its two loops running on `fuel`. -/
def findPath (g : Generator) (fuel : Nat) (source target : Vec2i) : Option (List Vec2i) :=
  match searchLoop g target fuel (initial source) with
  | none => none
  | some s => reconstruct s.heap fuel s.current

/-- `findPath(source, target)` returns `path`: every large enough fuel gives it. -/
def Returns (g : Generator) (source target : Vec2i) (path : List Vec2i) : Prop :=
  ∃ n, ∀ fuel, n ≤ fuel → findPath g fuel source target = some path

/-! ## The invariant of the search -/

/-- The node at address `p` is linked to a closed parent one legal move away. -/
def Linked (g : Generator) (target : Vec2i) (s : Search) (p : Nat) : Prop :=
  ∃ q i, (s.heap p).parent = some q ∧ q ∈ s.closedSet ∧ i < g.directions ∧
    (s.heap p).coordinates = (s.heap q).coordinates + g.dir i ∧
    (s.heap p).G = (s.heap q).G + moveCost i ∧
    g.detectCollision (s.heap p).coordinates = false ∧
    (s.heap p).H = g.heuristic (s.heap p).coordinates target

/-- The neighbour of the closed node `q` in direction `i`, when passable, is
closed or is in the open set at a cost no more than through `q`. -/
def Seen (g : Generator) (s : Search) (q i : Nat) : Prop :=
  g.detectCollision ((s.heap q).coordinates + g.dir i) = false →
    ∃ p, (s.heap p).coordinates = (s.heap q).coordinates + g.dir i ∧
      (p ∈ s.closedSet ∨ (p ∈ s.openSet ∧ (s.heap p).G ≤ (s.heap q).G + moveCost i))

/-- What holds of the two sets and the memory all through a search. -/
structure Core (g : Generator) (source target : Vec2i) (s : Search) : Prop where
  lt_next : ∀ p, p ∈ s.openSet ∨ p ∈ s.closedSet → p < s.next
  nodupOpen : s.openSet.Nodup
  nodupClosed : s.closedSet.Nodup
  disjoint : ∀ p, p ∈ s.openSet → p ∉ s.closedSet
  inj : ∀ p q, p ∈ s.openSet ∨ p ∈ s.closedSet → q ∈ s.openSet ∨ q ∈ s.closedSet →
    (s.heap p).coordinates = (s.heap q).coordinates → p = q
  start : s.heap 0 = Node.new source none
  link : ∀ p, p ∈ s.openSet ∨ p ∈ s.closedSet → p ≠ 0 → Linked g target s p
  closedNe : ∀ p ∈ s.closedSet, (s.heap p).coordinates ≠ target

/-- The invariant inside the `for` loop, before direction `k` of node `cur`. -/
structure Mid (g : Generator) (source target : Vec2i) (cur k : Nat) (s : Search) : Prop where
  core : Core g source target s
  zero_closed : 0 ∈ s.closedSet
  cur_closed : cur ∈ s.closedSet
  last : s.current = s.closedSet.getLast?
  seen : ∀ q ∈ s.closedSet, ∀ i, i < g.directions → q ≠ cur ∨ i < k → Seen g s q i

/-- The invariant at the head of the `while` loop. -/
structure Inv (g : Generator) (source target : Vec2i) (s : Search) : Prop where
  core : Core g source target s
  root : (s.openSet = [0] ∧ s.closedSet = []) ∨ 0 ∈ s.closedSet
  last : s.current = s.closedSet.getLast?
  seen : ∀ q ∈ s.closedSet, ∀ i, i < g.directions → Seen g s q i

/-- The cells inside the world. -/
def cells (g : Generator) : List Vec2i :=
  (List.range g.worldSize.x.toNat ×ˢ List.range g.worldSize.y.toNat).map
    (fun p => ⟨(p.1 : Int), (p.2 : Int)⟩)

/-- What the loop leaves behind: the invariant, and either an empty open set
or a chosen node of the open set that lies on the target. -/
def Final (g : Generator) (source target : Vec2i) (s' : Search) : Prop :=
  (Inv g source target s' ∧ s'.openSet = []) ∨
  ∃ s b, Inv g source target s ∧ b ∈ s.openSet ∧ (s.heap b).coordinates = target ∧
    (∀ x ∈ s.openSet, (s.heap b).getScore ≤ (s.heap x).getScore) ∧
    s' = { s with current := some b }

/-! ## Routes: the valid paths of the specification -/

/-- `Route g source l c`: the list `l`, read from its last element to its
first, starts at `source` and moves each time along an active direction into a
cell that is inside the world and not an obstacle; `c` is the cost of the moves,
10 for an orthogonal and 14 for a diagonal one.  This is the order in which
`findPath` returns a path. -/
inductive Route (g : Generator) (source : Vec2i) : List Vec2i → Nat → Prop
  | start : Route g source [source] 0
  | step {b : Vec2i} {l : List Vec2i} {c : Nat} (i : Nat) :
      Route g source (b :: l) c → i < g.directions →
      g.detectCollision (b + g.dir i) = false →
      Route g source ((b + g.dir i) :: b :: l) (c + moveCost i)

/-- `target` can be reached from `source` by active-direction steps through
passable cells. -/
def Reachable (g : Generator) (source target : Vec2i) : Prop :=
  ∃ l c, Route g source (target :: l) c

/-- The heuristic is consistent towards `target`: an active move lowers the
estimate by no more than it costs. -/
def Consistent (g : Generator) (target : Vec2i) : Prop :=
  ∀ a i, i < g.directions →
    g.heuristic a target ≤ moveCost i + g.heuristic (a + g.dir i) target

/-- Every closed node carries the least cost of a route from `source` to it. -/
def Opt (g : Generator) (source : Vec2i) (s : Search) : Prop :=
  ∀ q ∈ s.closedSet, ∀ l c, Route g source ((s.heap q).coordinates :: l) c → (s.heap q).G ≤ c

/-- The cost of one step between neighbouring cells: 10 when they share a row
or a column, 14 otherwise. -/
def stepCost (a b : Vec2i) : Nat := if a.x = b.x ∨ a.y = b.y then 10 else 14

/-- The total cost of a coordinate sequence, step by step. -/
def pathCost : List Vec2i → Nat
  | a :: b :: rest => stepCost a b + pathCost (b :: rest)
  | _ => 0

/-- A generator left in its default configuration: constructed, then given a
world size and its obstacles, movement mode and heuristic untouched. -/
def configureDefault (worldSize₀ : Vec2i) (width height : Int) (obstacles : List Vec2i) :
    Generator :=
  obstacles.foldl Generator.addCollision
    ((Generator.new worldSize₀).setWorldSize ⟨width, height⟩)

/-- In the words of the specification: the minimal cost of moving from `a` to
`b` with 4-directional movement, `10 * (dx + dy)`. -/
def minCostFour (a b : Vec2i) : Nat :=
  10 * ((a.x - b.x).natAbs + (a.y - b.y).natAbs)

/-- In the words of the specification: the minimal cost of moving from `a` to
`b` with 8-directional movement, `14 * min(dx,dy) + 10 * (max(dx,dy) - min(dx,dy))`. -/
def minCostEight (a b : Vec2i) : Nat :=
  14 * min (a.x - b.x).natAbs (a.y - b.y).natAbs +
    10 * (max (a.x - b.x).natAbs (a.y - b.y).natAbs -
      min (a.x - b.x).natAbs (a.y - b.y).natAbs)

/-- The states of `findPath` at the head of its `while` loop, each time the
loop condition is about to be evaluated: the state before the first turn, and
the state a turn that goes on leaves behind. -/
inductive Reached (g : Generator) (source target : Vec2i) : Search → Prop
  | start : Reached g source target (initial source)
  | next {s s' : Search} :
      Reached g source target s → turn g target s = .again s' → Reached g source target s'

/-- The generator after `k` calls of `removeCollision` with the same coordinate. -/
def Generator.removeCollisionTimes (g : Generator) (coordinates : Vec2i) : Nat → Generator
  | 0 => g
  | k + 1 => (Generator.removeCollisionTimes g coordinates k).removeCollision coordinates

/-- A sample generator: a 3x3 world with diagonal movement, the Euclidean
heuristic and one obstacle at (1,1). -/
def sampleGenerator : Generator := configure 3 3 true Heuristic.euclidean [⟨1, 1⟩]

/-- The state of the search from (0,0) to (2,2) on the sample generator at the
head of its second turn: the start node is closed and has been expanded. -/
def sampleState : Search :=
  expand sampleGenerator ⟨2, 2⟩ 0
    { initial ⟨0, 0⟩ with current := some 0, closedSet := [0], openSet := [] }

/-- A generator on which a score wraps: a 3x3 world with 4-directional
movement, no obstacle, and the Euclidean heuristic in double arithmetic. -/
def wrapGenerator : Generator := configure 3 3 false Heuristic.euclideanDouble []

/-- The state of the search from (0,0) to (429496729,0) on that generator at
the head of its second turn: the start node is closed and has been expanded. -/
def wrapState : Search :=
  expand wrapGenerator ⟨429496729, 0⟩ 0
    { initial ⟨0, 0⟩ with current := some 0, closedSet := [0], openSet := [] }

theorem searchLoop_mono (g : Generator) (target : Vec2i) (fuel : Nat) :
    ∀ (s s' : Search), searchLoop g target fuel s = some s' →
      ∀ fuel', fuel ≤ fuel' → searchLoop g target fuel' s = some s' := by
  induction fuel with
  | zero => intro s s' h; simp [searchLoop] at h
  | succ n ih =>
    intro s s' h fuel' hle
    obtain ⟨m, rfl⟩ : ∃ m, fuel' = m + 1 := ⟨fuel' - 1, by omega⟩
    simp only [searchLoop] at h ⊢
    cases ht : turn g target s with
    | exit t => simpa [ht] using h
    | again t =>
      rw [ht] at h
      exact ih t s' h m (by omega)

theorem reconstruct_mono (heap : Nat → Node) (fuel : Nat) :
    ∀ (cur : Option Nat) (path : List Vec2i), reconstruct heap fuel cur = some path →
      ∀ fuel', fuel ≤ fuel' → reconstruct heap fuel' cur = some path := by
  induction fuel with
  | zero =>
    intro cur path h fuel' _
    cases cur with
    | none => cases fuel' <;> simpa [reconstruct] using h
    | some p => simp [reconstruct] at h
  | succ n ih =>
    intro cur path h fuel' hle
    obtain ⟨m, rfl⟩ : ∃ m, fuel' = m + 1 := ⟨fuel' - 1, by omega⟩
    cases cur with
    | none => simpa [reconstruct] using h
    | some p =>
      simp only [reconstruct, Option.map_eq_some'] at h ⊢
      obtain ⟨l, hl, rfl⟩ := h
      exact ⟨l, ih _ _ hl m (by omega), rfl⟩

theorem findPath_mono (g : Generator) (source target : Vec2i) (fuel fuel' : Nat)
    (path : List Vec2i) (h : findPath g fuel source target = some path) (hle : fuel ≤ fuel') :
    findPath g fuel' source target = some path := by
  unfold findPath at h ⊢
  cases hs : searchLoop g target fuel (initial source) with
  | none => simp [hs] at h
  | some s =>
    rw [hs] at h
    rw [searchLoop_mono g target fuel _ _ hs fuel' hle]
    exact reconstruct_mono _ _ _ _ h _ hle

theorem returns_of_findPath (g : Generator) (source target : Vec2i) (fuel : Nat)
    (path : List Vec2i) (h : findPath g fuel source target = some path) :
    Returns g source target path :=
  ⟨fuel, fun _ hle => findPath_mono g source target fuel _ path h hle⟩

theorem returns_unique (g : Generator) (source target : Vec2i) (p q : List Vec2i)
    (hp : Returns g source target p) (hq : Returns g source target q) : p = q := by
  obtain ⟨n, hn⟩ := hp
  obtain ⟨m, hm⟩ := hq
  have h1 := hn (max n m) (le_max_left _ _)
  have h2 := hm (max n m) (le_max_right _ _)
  rw [h1] at h2
  exact Option.some.inj h2

/-- Once the search loop and the pointer walk both finish, `findPath` returns. -/
theorem returns_of_loops (g : Generator) (source target : Vec2i) (n m : Nat) (s : Search)
    (path : List Vec2i) (hs : searchLoop g target n (initial source) = some s)
    (hr : reconstruct s.heap m s.current = some path) : Returns g source target path := by
  refine returns_of_findPath g source target (max n m) path ?_
  unfold findPath
  rw [searchLoop_mono g target n _ _ hs _ (le_max_left _ _)]
  exact reconstruct_mono _ _ _ _ hr _ (le_max_right _ _)

/-! ## The scan of the open set -/

theorem scanOpen_spec (heap : Nat → Node) (l : List Nat) :
    ∀ (it : Nat) (best : Nat × Nat),
      (heap (scanOpen heap l it best).1).getScore ≤ (heap best.1).getScore ∧
      (∀ x ∈ l, (heap (scanOpen heap l it best).1).getScore ≤ (heap x).getScore) ∧
      ((scanOpen heap l it best = best ∧ ∀ x ∈ l, (heap best.1).getScore < (heap x).getScore) ∨
        ∃ pre post, l = pre ++ (scanOpen heap l it best).1 :: post ∧
          (scanOpen heap l it best).2 = it + pre.length ∧
          ∀ x ∈ post, (heap (scanOpen heap l it best).1).getScore < (heap x).getScore) := by
  induction l with
  | nil => intro it best; simp [scanOpen]
  | cons a rest ih =>
    intro it best
    by_cases hc : (heap a).getScore ≤ (heap best.1).getScore
    · have hs : scanOpen heap (a :: rest) it best = scanOpen heap rest (it + 1) (a, it) := by
        simp [scanOpen, hc]
      rw [hs]
      obtain ⟨h1, h2, h3⟩ := ih (it + 1) (a, it)
      refine ⟨le_trans h1 hc, ?_, Or.inr ?_⟩
      · intro x hx
        rcases List.mem_cons.1 hx with rfl | hx
        · exact h1
        · exact h2 x hx
      · rcases h3 with ⟨heq, hlt⟩ | ⟨pre, post, hl, hidx, hlt⟩
        · refine ⟨[], rest, ?_, ?_, ?_⟩
          · simp [heq]
          · simp [heq]
          · simpa [heq] using hlt
        · refine ⟨a :: pre, post, ?_, ?_, hlt⟩
          · simpa using hl
          · simp [hidx]; omega
    · have hs : scanOpen heap (a :: rest) it best = scanOpen heap rest (it + 1) best := by
        simp [scanOpen, hc]
      rw [hs]
      obtain ⟨h1, h2, h3⟩ := ih (it + 1) best
      refine ⟨h1, ?_, ?_⟩
      · intro x hx
        rcases List.mem_cons.1 hx with rfl | hx
        · exact le_trans h1 (le_of_lt (not_le.1 hc))
        · exact h2 x hx
      · rcases h3 with ⟨heq, hlt⟩ | ⟨pre, post, hl, hidx, hlt⟩
        · left
          refine ⟨heq, ?_⟩
          intro x hx
          rcases List.mem_cons.1 hx with rfl | hx
          · exact not_le.1 hc
          · exact hlt x hx
        · right
          refine ⟨a :: pre, post, ?_, ?_, hlt⟩
          · simpa using hl
          · simp [hidx]; omega

/-- The scan from the first element: the chosen node has the least score of the
open set, sits at the chosen position, and every node behind it scores more. -/
theorem scanOpen_first (heap : Nat → Node) (first : Nat) (rest : List Nat) :
    (∀ x ∈ first :: rest,
        (heap (scanOpen heap (first :: rest) 0 (first, 0)).1).getScore ≤ (heap x).getScore) ∧
      ∃ pre post, first :: rest = pre ++ (scanOpen heap (first :: rest) 0 (first, 0)).1 :: post ∧
        (scanOpen heap (first :: rest) 0 (first, 0)).2 = pre.length ∧
        ∀ x ∈ post,
          (heap (scanOpen heap (first :: rest) 0 (first, 0)).1).getScore < (heap x).getScore := by
  obtain ⟨_, h2, h3⟩ := scanOpen_spec heap (first :: rest) 0 (first, 0)
  refine ⟨h2, ?_⟩
  rcases h3 with ⟨_, hlt⟩ | ⟨pre, post, hl, hidx, hlt⟩
  · exact absurd (hlt first (List.mem_cons_self _ _)) (lt_irrefl _)
  · exact ⟨pre, post, hl, by simpa using hidx, hlt⟩

theorem eraseIdx_append_cons {α : Type} (pre : List α) (a : α) (post : List α) :
    (pre ++ a :: post).eraseIdx pre.length = pre ++ post := by
  induction pre with
  | nil => simp
  | cons b pre ih => simpa using ih

/-! ## The cases of one visit -/

theorem findNodeOnList_none (heap : Nat → Node) (nodes : List Nat) (c : Vec2i) :
    findNodeOnList heap nodes c = none ↔ ∀ p ∈ nodes, (heap p).coordinates ≠ c := by
  simp [findNodeOnList, List.find?_eq_none]

theorem findNodeOnList_some (heap : Nat → Node) (nodes : List Nat) (c : Vec2i) (p : Nat)
    (h : findNodeOnList heap nodes c = some p) : p ∈ nodes ∧ (heap p).coordinates = c := by
  unfold findNodeOnList at h
  exact ⟨List.mem_of_find?_eq_some h, by simpa using List.find?_some h⟩

/-- The four ways a visit of direction `i` can go: the neighbour is skipped, a
new node is created, a node of the open set is re-linked, or it is kept. -/
theorem visit_cases (g : Generator) (target : Vec2i) (cur : Nat) (s : Search) (i : Nat) :
    (visit g target cur s i = s ∧
        (g.detectCollision ((s.heap cur).coordinates + g.dir i) = true ∨
          ∃ q ∈ s.closedSet, (s.heap q).coordinates = (s.heap cur).coordinates + g.dir i)) ∨
    (g.detectCollision ((s.heap cur).coordinates + g.dir i) = false ∧
        (∀ q ∈ s.closedSet, (s.heap q).coordinates ≠ (s.heap cur).coordinates + g.dir i) ∧
        (∀ q ∈ s.openSet, (s.heap q).coordinates ≠ (s.heap cur).coordinates + g.dir i) ∧
        visit g target cur s i =
          { s with
            heap := Function.update s.heap s.next
              { G := (s.heap cur).G + moveCost i
                H := g.heuristic ((s.heap cur).coordinates + g.dir i) target
                coordinates := (s.heap cur).coordinates + g.dir i
                parent := some cur }
            next := s.next + 1
            openSet := s.openSet ++ [s.next] }) ∨
    (g.detectCollision ((s.heap cur).coordinates + g.dir i) = false ∧
        (∀ q ∈ s.closedSet, (s.heap q).coordinates ≠ (s.heap cur).coordinates + g.dir i) ∧
        ∃ p ∈ s.openSet, (s.heap p).coordinates = (s.heap cur).coordinates + g.dir i ∧
          (s.heap cur).G + moveCost i < (s.heap p).G ∧
          visit g target cur s i =
            { s with
              heap := Function.update s.heap p
                { s.heap p with parent := some cur, G := (s.heap cur).G + moveCost i } }) ∨
    (g.detectCollision ((s.heap cur).coordinates + g.dir i) = false ∧
        (∀ q ∈ s.closedSet, (s.heap q).coordinates ≠ (s.heap cur).coordinates + g.dir i) ∧
        ∃ p ∈ s.openSet, (s.heap p).coordinates = (s.heap cur).coordinates + g.dir i ∧
          (s.heap p).G ≤ (s.heap cur).G + moveCost i ∧ visit g target cur s i = s) := by
  by_cases hcol : g.detectCollision ((s.heap cur).coordinates + g.dir i) = true
  · left
    exact ⟨by simp [visit, hcol], Or.inl hcol⟩
  · have hcol' : g.detectCollision ((s.heap cur).coordinates + g.dir i) = false := by
      simpa using hcol
    cases hcl : findNodeOnList s.heap s.closedSet ((s.heap cur).coordinates + g.dir i) with
    | some q =>
      left
      obtain ⟨hq, hqc⟩ := findNodeOnList_some _ _ _ _ hcl
      exact ⟨by simp [visit, hcl], Or.inr ⟨q, hq, hqc⟩⟩
    | none =>
      have hncl := (findNodeOnList_none _ _ _).1 hcl
      right
      cases hop : findNodeOnList s.heap s.openSet ((s.heap cur).coordinates + g.dir i) with
      | none =>
        left
        refine ⟨hcol', hncl, (findNodeOnList_none _ _ _).1 hop, ?_⟩
        simp [visit, hcol', hcl, hop, Node.new]
      | some p =>
        right
        obtain ⟨hp, hpc⟩ := findNodeOnList_some _ _ _ _ hop
        by_cases hlt : (s.heap cur).G + moveCost i < (s.heap p).G
        · left
          refine ⟨hcol', hncl, p, hp, hpc, hlt, ?_⟩
          simp [visit, hcol', hcl, hop, hlt]
        · right
          refine ⟨hcol', hncl, p, hp, hpc, not_lt.1 hlt, ?_⟩
          simp [visit, hcol', hcl, hop, hlt]

theorem Linked.frame (g : Generator) (target : Vec2i) (s s' : Search) (p : Nat)
    (h : Linked g target s p) (hp : s'.heap p = s.heap p)
    (hcl : s'.closedSet = s.closedSet) (hq : ∀ q ∈ s.closedSet, s'.heap q = s.heap q) :
    Linked g target s' p := by
  obtain ⟨q, i, h1, h2, h3, h4, h5, h6, h7⟩ := h
  refine ⟨q, i, ?_, ?_, h3, ?_, ?_, ?_, ?_⟩
  · rw [hp]; exact h1
  · rw [hcl]; exact h2
  · rw [hp, hq q h2]; exact h4
  · rw [hp, hq q h2]; exact h5
  · rw [hp]; exact h6
  · rw [hp]; exact h7

theorem Seen.transfer (g : Generator) (s s' : Search) (q i : Nat)
    (h : Seen g s q i) (hq : s'.heap q = s.heap q)
    (hcl : ∀ p ∈ s.closedSet, p ∈ s'.closedSet ∧ s'.heap p = s.heap p)
    (hop : ∀ p ∈ s.openSet, (s'.heap p).coordinates = (s.heap p).coordinates ∧
      (p ∈ s'.closedSet ∨ (p ∈ s'.openSet ∧ (s'.heap p).G ≤ (s.heap p).G))) :
    Seen g s' q i := by
  intro hpass
  rw [hq] at hpass
  obtain ⟨p, hpc, hp⟩ := h hpass
  refine ⟨p, ?_, ?_⟩
  · rcases hp with hp | ⟨hp, _⟩
    · rw [(hcl p hp).2, hq]; exact hpc
    · rw [(hop p hp).1, hq]; exact hpc
  · rcases hp with hp | ⟨hp, hG⟩
    · exact Or.inl (hcl p hp).1
    · rcases (hop p hp).2 with h' | ⟨h', hG'⟩
      · exact Or.inl h'
      · right
        refine ⟨h', ?_⟩
        rw [hq]
        exact le_trans hG' hG

theorem initial_inv (g : Generator) (source target : Vec2i) :
    Inv g source target (initial source) := by
  refine ⟨⟨?_, ?_, ?_, ?_, ?_, rfl, ?_, ?_⟩, Or.inl ⟨rfl, rfl⟩, rfl, ?_⟩
  · intro p hp; simp [initial] at hp ⊢; omega
  · simp [initial]
  · simp [initial]
  · simp [initial]
  · intro p q hp hq _; simp [initial] at hp hq; omega
  · intro p hp hne; simp [initial] at hp; exact absurd hp hne
  · simp [initial]
  · simp [initial]

/-- A visit that creates a node keeps the invariant of the `for` loop. -/
theorem Mid.fresh (g : Generator) (source target : Vec2i) (cur k : Nat) (s s' : Search)
    (h : Mid g source target cur k s) (hk : k < g.directions)
    (hcol : g.detectCollision ((s.heap cur).coordinates + g.dir k) = false)
    (hncl : ∀ q ∈ s.closedSet, (s.heap q).coordinates ≠ (s.heap cur).coordinates + g.dir k)
    (hnop : ∀ q ∈ s.openSet, (s.heap q).coordinates ≠ (s.heap cur).coordinates + g.dir k)
    (hold : ∀ p, p ∈ s.openSet ∨ p ∈ s.closedSet → s'.heap p = s.heap p)
    (hnew : s'.heap s.next =
      { G := (s.heap cur).G + moveCost k
        H := g.heuristic ((s.heap cur).coordinates + g.dir k) target
        coordinates := (s.heap cur).coordinates + g.dir k
        parent := some cur })
    (hnext : s'.next = s.next + 1) (hopen : s'.openSet = s.openSet ++ [s.next])
    (hclosed : s'.closedSet = s.closedSet) (hcurrent : s'.current = s.current) :
    Mid g source target cur (k + 1) s' := by
  have hnextO : s.next ∉ s.openSet := fun hm => lt_irrefl _ (h.core.lt_next _ (Or.inl hm))
  have hnextC : s.next ∉ s.closedSet := fun hm => lt_irrefl _ (h.core.lt_next _ (Or.inr hm))
  have hlive : ∀ p, p ∈ s'.openSet ∨ p ∈ s'.closedSet →
      (p ∈ s.openSet ∨ p ∈ s.closedSet) ∨ p = s.next := by
    intro p hp
    rw [hopen, hclosed] at hp
    simp only [List.mem_append, List.mem_singleton] at hp
    tauto
  refine ⟨⟨?_, ?_, ?_, ?_, ?_, ?_, ?_, ?_⟩, ?_, ?_, ?_, ?_⟩
  · intro p hp
    rw [hnext]
    rcases hlive p hp with hp | rfl
    · exact Nat.lt_succ_of_lt (h.core.lt_next p hp)
    · exact Nat.lt_succ_self _
  · rw [hopen, List.nodup_append]
    refine ⟨h.core.nodupOpen, List.nodup_singleton _, ?_⟩
    intro a ha hb
    rw [List.mem_singleton] at hb
    exact hnextO (hb ▸ ha)
  · rw [hclosed]; exact h.core.nodupClosed
  · intro p hp
    rw [hopen] at hp
    rw [hclosed]
    simp only [List.mem_append, List.mem_singleton] at hp
    rcases hp with hp | rfl
    · exact h.core.disjoint p hp
    · exact hnextC
  · intro p q hp hq hpq
    rcases hlive p hp with hp' | rfl <;> rcases hlive q hq with hq' | rfl
    · rw [hold p hp', hold q hq'] at hpq
      exact h.core.inj p q hp' hq' hpq
    · rw [hold p hp', hnew] at hpq
      rcases hp' with hp' | hp'
      · exact absurd hpq (hnop p hp')
      · exact absurd hpq (hncl p hp')
    · rw [hold q hq', hnew] at hpq
      rcases hq' with hq' | hq'
      · exact absurd hpq.symm (hnop q hq')
      · exact absurd hpq.symm (hncl q hq')
    · rfl
  · rw [hold 0 (Or.inr h.zero_closed)]
    exact h.core.start
  · intro p hp hne
    rcases hlive p hp with hp' | rfl
    · exact Linked.frame g target s _ p (h.core.link p hp' hne) (hold p hp') hclosed
        (fun q hq => hold q (Or.inr hq))
    · refine ⟨cur, k, ?_, by rw [hclosed]; exact h.cur_closed, hk, ?_, ?_, ?_, ?_⟩
      · rw [hnew]
      · rw [hnew, hold cur (Or.inr h.cur_closed)]
      · rw [hnew, hold cur (Or.inr h.cur_closed)]
      · rw [hnew]; exact hcol
      · rw [hnew]
  · intro p hp
    rw [hclosed] at hp
    rw [hold p (Or.inr hp)]
    exact h.core.closedNe p hp
  · rw [hclosed]; exact h.zero_closed
  · rw [hclosed]; exact h.cur_closed
  · rw [hclosed, hcurrent]; exact h.last
  · intro q hq i hi hor
    rw [hclosed] at hq
    by_cases hold' : q ≠ cur ∨ i < k
    · refine Seen.transfer g s _ q i (h.seen q hq i hi hold') (hold q (Or.inr hq)) ?_ ?_
      · intro p hp; exact ⟨by rw [hclosed]; exact hp, hold p (Or.inr hp)⟩
      · intro p hp
        refine ⟨by rw [hold p (Or.inl hp)], Or.inr ⟨?_, ?_⟩⟩
        · rw [hopen]; simp [hp]
        · rw [hold p (Or.inl hp)]
    · have hqc : q = cur := by tauto
      have hik : i = k := by omega
      subst hqc hik
      intro _
      refine ⟨s.next, ?_, Or.inr ⟨by rw [hopen]; simp, ?_⟩⟩
      · rw [hnew, hold q (Or.inr hq)]
      · rw [hnew, hold q (Or.inr hq)]

/-- A visit that re-links a node of the open set keeps the invariant of the
`for` loop. -/
theorem Mid.relink (g : Generator) (source target : Vec2i) (cur k p₀ : Nat) (s s' : Search)
    (h : Mid g source target cur k s) (hk : k < g.directions)
    (hcol : g.detectCollision ((s.heap cur).coordinates + g.dir k) = false)
    (hp₀ : p₀ ∈ s.openSet)
    (hp₀c : (s.heap p₀).coordinates = (s.heap cur).coordinates + g.dir k)
    (hlt : (s.heap cur).G + moveCost k < (s.heap p₀).G)
    (hother : ∀ p, p ≠ p₀ → s'.heap p = s.heap p)
    (hnew : s'.heap p₀ = { s.heap p₀ with parent := some cur, G := (s.heap cur).G + moveCost k })
    (hnext : s'.next = s.next) (hopen : s'.openSet = s.openSet)
    (hclosed : s'.closedSet = s.closedSet) (hcurrent : s'.current = s.current) :
    Mid g source target cur (k + 1) s' := by
  have hp₀C : p₀ ∉ s.closedSet := h.core.disjoint p₀ hp₀
  have hcl : ∀ q ∈ s.closedSet, s'.heap q = s.heap q := by
    intro q hq
    exact hother q (fun e => hp₀C (e ▸ hq))
  have hcoord : ∀ p, (s'.heap p).coordinates = (s.heap p).coordinates := by
    intro p
    by_cases hp : p = p₀
    · subst hp; rw [hnew]
    · rw [hother p hp]
  have hp₀0 : p₀ ≠ 0 := fun e => hp₀C (e ▸ h.zero_closed)
  refine ⟨⟨?_, ?_, ?_, ?_, ?_, ?_, ?_, ?_⟩, ?_, ?_, ?_, ?_⟩
  · intro p hp
    rw [hopen, hclosed] at hp
    rw [hnext]
    exact h.core.lt_next p hp
  · rw [hopen]; exact h.core.nodupOpen
  · rw [hclosed]; exact h.core.nodupClosed
  · rw [hopen, hclosed]; exact h.core.disjoint
  · intro p q hp hq hpq
    rw [hopen, hclosed] at hp hq
    rw [hcoord p, hcoord q] at hpq
    exact h.core.inj p q hp hq hpq
  · rw [hother 0 (Ne.symm hp₀0)]
    exact h.core.start
  · intro p hp hne
    rw [hopen, hclosed] at hp
    by_cases hpp : p = p₀
    · subst hpp
      obtain ⟨_, _, _, _, _, _, _, h6, h7⟩ := h.core.link p hp hne
      refine ⟨cur, k, ?_, by rw [hclosed]; exact h.cur_closed, hk, ?_, ?_, ?_, ?_⟩
      · rw [hnew]
      · rw [hnew, hcl cur h.cur_closed]; exact hp₀c
      · rw [hnew, hcl cur h.cur_closed]
      · rw [hnew]; exact h6
      · rw [hnew]; exact h7
    · exact Linked.frame g target s _ p (h.core.link p hp hne) (hother p hpp) hclosed hcl
  · intro p hp
    rw [hclosed] at hp
    rw [hcl p hp]
    exact h.core.closedNe p hp
  · rw [hclosed]; exact h.zero_closed
  · rw [hclosed]; exact h.cur_closed
  · rw [hclosed, hcurrent]; exact h.last
  · intro q hq i hi hor
    rw [hclosed] at hq
    have hframe : ∀ p ∈ s.openSet, (s'.heap p).coordinates = (s.heap p).coordinates ∧
        (p ∈ s'.closedSet ∨ (p ∈ s'.openSet ∧ (s'.heap p).G ≤ (s.heap p).G)) := by
      intro p hp
      refine ⟨hcoord p, Or.inr ⟨by rw [hopen]; exact hp, ?_⟩⟩
      by_cases hpp : p = p₀
      · subst hpp; rw [hnew]; exact le_of_lt hlt
      · rw [hother p hpp]
    by_cases hold' : q ≠ cur ∨ i < k
    · exact Seen.transfer g s _ q i (h.seen q hq i hi hold') (hcl q hq)
        (fun p hp => ⟨by rw [hclosed]; exact hp, hcl p hp⟩) hframe
    · have hqc : q = cur := by tauto
      have hik : i = k := by omega
      subst hqc hik
      intro _
      refine ⟨p₀, ?_, Or.inr ⟨by rw [hopen]; exact hp₀, ?_⟩⟩
      · rw [hcoord, hcl q hq]; exact hp₀c
      · rw [hnew, hcl q hq]

/-- A visit that changes nothing keeps the invariant of the `for` loop. -/
theorem Mid.keep (g : Generator) (source target : Vec2i) (cur k : Nat) (s : Search)
    (h : Mid g source target cur k s) (hs : Seen g s cur k) :
    Mid g source target cur (k + 1) s := by
  refine ⟨h.core, h.zero_closed, h.cur_closed, h.last, ?_⟩
  intro q hq i hi hor
  by_cases hold' : q ≠ cur ∨ i < k
  · exact h.seen q hq i hi hold'
  · have hqc : q = cur := by tauto
    have hik : i = k := by omega
    subst hqc hik
    exact hs

/-- One visit keeps the invariant of the `for` loop. -/
theorem Mid.step (g : Generator) (source target : Vec2i) (cur k : Nat) (s : Search)
    (h : Mid g source target cur k s) (hk : k < g.directions) :
    Mid g source target cur (k + 1) (visit g target cur s k) := by
  rcases visit_cases g target cur s k with
    ⟨he, hskip⟩ | ⟨hcol, hncl, hnop, he⟩ | ⟨hcol, _, p, hp, hpc, hlt, he⟩ |
    ⟨hcol, _, p, hp, hpc, hle, he⟩
  · rw [he]
    refine Mid.keep g source target cur k s h ?_
    intro hpass
    rcases hskip with hcol | ⟨q, hq, hqc⟩
    · rw [hcol] at hpass; exact absurd hpass (by simp)
    · exact ⟨q, hqc, Or.inl hq⟩
  · rw [he]
    exact Mid.fresh g source target cur k s _ h hk hcol hncl hnop
      (fun p hp => Function.update_noteq (ne_of_lt (h.core.lt_next p hp)) _ _)
      (Function.update_same _ _ _) rfl rfl rfl rfl
  · rw [he]
    exact Mid.relink g source target cur k p s _ h hk hcol hp hpc hlt
      (fun q hq => Function.update_noteq hq _ _) (Function.update_same _ _ _) rfl rfl rfl rfl
  · rw [he]
    exact Mid.keep g source target cur k s h (fun _ => ⟨p, hpc, Or.inr ⟨hp, hle⟩⟩)

/-- The `for` loop up to direction `k`. -/
theorem Mid.steps (g : Generator) (source target : Vec2i) (cur : Nat) (s : Search)
    (h : Mid g source target cur 0 s) :
    ∀ k, k ≤ g.directions →
      Mid g source target cur k ((List.range k).foldl (visit g target cur) s) := by
  intro k
  induction k with
  | zero => intro _; simpa using h
  | succ n ih =>
    intro hle
    rw [List.range_succ, List.foldl_append]
    exact Mid.step g source target cur n _ (ih (by omega)) (by omega)

/-- The whole `for` loop restores the invariant of the `while` loop. -/
theorem Mid.finish (g : Generator) (source target : Vec2i) (cur : Nat) (s : Search)
    (h : Mid g source target cur 0 s) : Inv g source target (expand g target cur s) := by
  have hm := Mid.steps g source target cur s h g.directions le_rfl
  refine ⟨hm.core, Or.inr hm.zero_closed, hm.last, ?_⟩
  intro q hq i hi
  exact hm.seen q hq i hi (Or.inr hi)

/-! ## One turn of the `while` loop -/

theorem visit_closedSet (g : Generator) (target : Vec2i) (cur : Nat) (s : Search) (i : Nat) :
    (visit g target cur s i).closedSet = s.closedSet := by
  rcases visit_cases g target cur s i with
    ⟨he, _⟩ | ⟨_, _, _, he⟩ | ⟨_, _, p, _, _, _, he⟩ | ⟨_, _, p, _, _, _, he⟩ <;> rw [he]

theorem visit_current (g : Generator) (target : Vec2i) (cur : Nat) (s : Search) (i : Nat) :
    (visit g target cur s i).current = s.current := by
  rcases visit_cases g target cur s i with
    ⟨he, _⟩ | ⟨_, _, _, he⟩ | ⟨_, _, p, _, _, _, he⟩ | ⟨_, _, p, _, _, _, he⟩ <;> rw [he]

theorem foldl_visit_closedSet (g : Generator) (target : Vec2i) (cur : Nat) (l : List Nat) :
    ∀ s : Search, (l.foldl (visit g target cur) s).closedSet = s.closedSet ∧
      (l.foldl (visit g target cur) s).current = s.current := by
  induction l with
  | nil => intro s; exact ⟨rfl, rfl⟩
  | cons a l ih =>
    intro s
    rw [List.foldl_cons]
    exact ⟨(ih _).1.trans (visit_closedSet g target cur s a),
      (ih _).2.trans (visit_current g target cur s a)⟩

theorem expand_closedSet (g : Generator) (target : Vec2i) (cur : Nat) (s : Search) :
    (expand g target cur s).closedSet = s.closedSet :=
  (foldl_visit_closedSet g target cur _ s).1

theorem expand_current (g : Generator) (target : Vec2i) (cur : Nat) (s : Search) :
    (expand g target cur s).current = s.current :=
  (foldl_visit_closedSet g target cur _ s).2

/-- The three ways a turn of the loop can go: the open set is empty; the node
of least score is the target; or that node is closed and expanded. -/
theorem turn_cases (g : Generator) (target : Vec2i) (s : Search) :
    (s.openSet = [] ∧ turn g target s = .exit s) ∨
    ∃ b pre post, s.openSet = pre ++ b :: post ∧
      (∀ x ∈ s.openSet, (s.heap b).getScore ≤ (s.heap x).getScore) ∧
      (∀ x ∈ post, (s.heap b).getScore < (s.heap x).getScore) ∧
      (((s.heap b).coordinates = target ∧
          turn g target s = .exit { s with current := some b }) ∨
        ((s.heap b).coordinates ≠ target ∧
          turn g target s = .again (expand g target b
            { s with
              current := some b
              closedSet := s.closedSet ++ [b]
              openSet := pre ++ post }))) := by
  cases hop : s.openSet with
  | nil => left; exact ⟨rfl, by simp [turn, hop]⟩
  | cons first rest =>
    right
    obtain ⟨hmin, pre, post, hl, hidx, hlt⟩ := scanOpen_first s.heap first rest
    refine ⟨(scanOpen s.heap (first :: rest) 0 (first, 0)).1, pre, post, hl, hmin, hlt, ?_⟩
    by_cases hc : (s.heap (scanOpen s.heap (first :: rest) 0 (first, 0)).1).coordinates = target
    · left
      exact ⟨hc, by simp [turn, hop, hc]⟩
    · right
      refine ⟨hc, ?_⟩
      have he : (first :: rest).eraseIdx (scanOpen s.heap (first :: rest) 0 (first, 0)).2 =
          pre ++ post := by
        rw [hidx]
        conv_lhs => rw [hl]
        exact eraseIdx_append_cons pre _ post
      simp [turn, hop, hc, he]

/-- Moving the chosen node from the open to the closed set sets up the
invariant of the `for` loop. -/
theorem Inv.close (g : Generator) (source target : Vec2i) (s s' : Search) (b : Nat)
    (pre post : List Nat) (h : Inv g source target s) (hop : s.openSet = pre ++ b :: post)
    (hb : (s.heap b).coordinates ≠ target)
    (hheap : s'.heap = s.heap) (hnext : s'.next = s.next) (hopen : s'.openSet = pre ++ post)
    (hclosed : s'.closedSet = s.closedSet ++ [b]) (hcurrent : s'.current = some b) :
    Mid g source target b 0 s' := by
  have hbo : b ∈ s.openSet := by rw [hop]; simp
  have hnd : (pre ++ b :: post).Nodup := hop ▸ h.core.nodupOpen
  have hbpp : b ∉ pre ++ post := by
    intro hm
    have := List.nodup_middle.1 hnd
    exact (List.nodup_cons.1 this).1 hm
  have hsub : ∀ p, p ∈ pre ++ post → p ∈ s.openSet := by
    intro p hp
    rw [hop]
    simp only [List.mem_append, List.mem_cons] at hp ⊢
    tauto
  have hlive : ∀ p, p ∈ s'.openSet ∨ p ∈ s'.closedSet → p ∈ s.openSet ∨ p ∈ s.closedSet := by
    intro p hp
    rw [hopen, hclosed] at hp
    rcases hp with hp | hp
    · exact Or.inl (hsub p hp)
    · rcases List.mem_append.1 hp with hp | hp
      · exact Or.inr hp
      · rw [List.mem_singleton] at hp; exact Or.inl (hp ▸ hbo)
  have hbc : b ∉ s.closedSet := h.core.disjoint b hbo
  have hlink : ∀ p, Linked g target s p → Linked g target s' p := by
    rintro p ⟨q, i, h1, h2, h3, h4, h5, h6, h7⟩
    refine ⟨q, i, ?_, ?_, h3, ?_, ?_, ?_, ?_⟩
    · rw [hheap]; exact h1
    · rw [hclosed]; exact List.mem_append_left _ h2
    · rw [hheap]; exact h4
    · rw [hheap]; exact h5
    · rw [hheap]; exact h6
    · rw [hheap]; exact h7
  refine ⟨⟨?_, ?_, ?_, ?_, ?_, ?_, ?_, ?_⟩, ?_, ?_, ?_, ?_⟩
  · intro p hp
    rw [hnext]
    exact h.core.lt_next p (hlive p hp)
  · rw [hopen]
    exact (List.nodup_cons.1 (List.nodup_middle.1 hnd)).2
  · rw [hclosed, List.nodup_append]
    refine ⟨h.core.nodupClosed, List.nodup_singleton _, ?_⟩
    intro a ha hab
    rw [List.mem_singleton] at hab
    exact hbc (hab ▸ ha)
  · intro p hp hpc
    rw [hopen] at hp
    rw [hclosed] at hpc
    rcases List.mem_append.1 hpc with hpc | hpc
    · exact h.core.disjoint p (hsub p hp) hpc
    · rw [List.mem_singleton] at hpc
      exact hbpp (hpc ▸ hp)
  · intro p q hp hq hpq
    rw [hheap] at hpq
    exact h.core.inj p q (hlive p hp) (hlive q hq) hpq
  · rw [hheap]; exact h.core.start
  · intro p hp hne
    exact hlink p (h.core.link p (hlive p hp) hne)
  · intro p hp
    rw [hclosed] at hp
    rw [hheap]
    rcases List.mem_append.1 hp with hp | hp
    · exact h.core.closedNe p hp
    · rw [List.mem_singleton] at hp; rw [hp]; exact hb
  · rw [hclosed]
    rcases h.root with ⟨ho, _⟩ | hz
    · have : b = 0 := by
        rw [ho] at hbo
        simpa using hbo
      simp [this]
    · exact List.mem_append_left _ hz
  · rw [hclosed]; simp
  · rw [hclosed, hcurrent]; simp
  · intro q hq i hi hor
    rw [hclosed] at hq
    have hqb : q ≠ b := by
      rcases hor with hqb | hlt
      · exact hqb
      · omega
    have hqc : q ∈ s.closedSet := by
      rcases List.mem_append.1 hq with hq | hq
      · exact hq
      · rw [List.mem_singleton] at hq; exact absurd hq hqb
    intro hpass
    rw [hheap] at hpass ⊢
    obtain ⟨p, hpc, hp⟩ := h.seen q hqc i hi hpass
    refine ⟨p, hpc, ?_⟩
    rcases hp with hp | ⟨hp, hG⟩
    · exact Or.inl (by rw [hclosed]; exact List.mem_append_left _ hp)
    · by_cases hpb : p = b
      · left; rw [hclosed, hpb]; simp
      · right
        refine ⟨?_, hG⟩
        rw [hopen]
        rw [hop] at hp
        simp only [List.mem_append, List.mem_cons] at hp ⊢
        tauto

/-- A turn that goes on keeps the invariant and closes one more node. -/
theorem Inv.again (g : Generator) (source target : Vec2i) (s s' : Search)
    (h : Inv g source target s) (ht : turn g target s = .again s') :
    Inv g source target s' ∧ s'.closedSet.length = s.closedSet.length + 1 := by
  rcases turn_cases g target s with ⟨_, he⟩ | ⟨b, pre, post, hop, _, _, ⟨_, he⟩ | ⟨hb, he⟩⟩
  · rw [he] at ht; cases ht
  · rw [he] at ht; cases ht
  · rw [he] at ht
    injection ht with ht
    subst ht
    refine ⟨Mid.finish g source target b _
      (Inv.close g source target s _ b pre post h hop hb rfl rfl rfl rfl rfl), ?_⟩
    rw [expand_closedSet]
    simp

/-! ## Termination of the search loop -/

theorem length_cells (g : Generator) :
    (cells g).length = g.worldSize.x.toNat * g.worldSize.y.toNat := by
  simp [cells, List.length_product]

theorem detectCollision_false (g : Generator) (c : Vec2i) :
    g.detectCollision c = false ↔
      (0 ≤ c.x ∧ c.x < g.worldSize.x ∧ 0 ≤ c.y ∧ c.y < g.worldSize.y ∧ c ∉ g.walls) := by
  simp only [Generator.detectCollision, Bool.or_eq_false_iff, decide_eq_false_iff_not, not_lt,
    ge_iff_le, not_le, List.contains_eq_any_beq, List.any_eq_false, beq_iff_eq]
  constructor
  · rintro ⟨⟨⟨⟨h1, h2⟩, h3⟩, h4⟩, h5⟩
    exact ⟨h1, h2, h3, h4, fun hm => h5 c hm rfl⟩
  · rintro ⟨h1, h2, h3, h4, h5⟩
    exact ⟨⟨⟨⟨h1, h2⟩, h3⟩, h4⟩, fun x hx hxc => h5 (hxc ▸ hx)⟩

theorem mem_cells (g : Generator) (c : Vec2i) (h : g.detectCollision c = false) :
    c ∈ cells g := by
  obtain ⟨h1, h2, h3, h4, _⟩ := (detectCollision_false g c).1 h
  refine List.mem_map.2 ⟨(c.x.toNat, c.y.toNat), ?_, ?_⟩
  · rw [List.mem_product, List.mem_range, List.mem_range]
    constructor <;> omega
  · cases c with
    | mk x y =>
      simp only [Vec2i.mk.injEq] at h1 h3 ⊢
      constructor <;> omega

/-- No more nodes are closed than the world has cells, the start apart. -/
theorem Inv.closed_le (g : Generator) (source target : Vec2i) (s : Search)
    (h : Inv g source target s) :
    s.closedSet.length ≤ g.worldSize.x.toNat * g.worldSize.y.toNat + 1 := by
  have hnd : (s.closedSet.map (fun p => (s.heap p).coordinates)).Nodup :=
    List.Nodup.map_on
      (fun x hx y hy hxy => h.core.inj x y (Or.inr hx) (Or.inr hy) hxy) h.core.nodupClosed
  have hsub : s.closedSet.map (fun p => (s.heap p).coordinates) ⊆ source :: cells g := by
    intro c hc
    obtain ⟨p, hp, rfl⟩ := List.mem_map.1 hc
    by_cases hp0 : p = 0
    · subst hp0
      rw [h.core.start]
      exact List.mem_cons_self _ _
    · obtain ⟨_, _, _, _, _, _, _, h6, _⟩ := h.core.link p (Or.inr hp) hp0
      exact List.mem_cons_of_mem _ (mem_cells g _ h6)
  have := (List.Nodup.subperm hnd hsub).length_le
  simpa [length_cells] using this

theorem Inv.exit (g : Generator) (source target : Vec2i) (s s' : Search)
    (h : Inv g source target s) (ht : turn g target s = .exit s') :
    Final g source target s' := by
  rcases turn_cases g target s with
    ⟨ho, he⟩ | ⟨b, pre, post, hop, hmin, _, ⟨hb, he⟩ | ⟨_, he⟩⟩
  · rw [he] at ht
    injection ht with ht
    subst ht
    exact Or.inl ⟨h, ho⟩
  · rw [he] at ht
    injection ht with ht
    subst ht
    exact Or.inr ⟨s, b, h, by rw [hop]; simp, hb, hmin, rfl⟩
  · rw [he] at ht; cases ht

theorem searchLoop_final (g : Generator) (source target : Vec2i) (fuel : Nat) :
    ∀ s s' : Search, Inv g source target s → searchLoop g target fuel s = some s' →
      Final g source target s' := by
  induction fuel with
  | zero => intro s s' _ h; simp [searchLoop] at h
  | succ n ih =>
    intro s s' hinv h
    simp only [searchLoop] at h
    cases ht : turn g target s with
    | exit t =>
      rw [ht] at h
      injection h with h
      subst h
      exact Inv.exit g source target s _ hinv ht
    | again t =>
      rw [ht] at h
      exact ih t s' (Inv.again g source target s t hinv ht).1 h

/-- The loop stops: with the closed set at length `c`, it takes no more than
`width * height + 2 - c` turns. -/
theorem searchLoop_stops (g : Generator) (source target : Vec2i) (fuel : Nat) :
    ∀ s : Search, Inv g source target s →
      g.worldSize.x.toNat * g.worldSize.y.toNat + 2 ≤ fuel + s.closedSet.length →
      ∃ s', searchLoop g target fuel s = some s' := by
  induction fuel with
  | zero =>
    intro s hinv hle
    have := Inv.closed_le g source target s hinv
    omega
  | succ n ih =>
    intro s hinv hle
    simp only [searchLoop]
    cases ht : turn g target s with
    | exit t => exact ⟨t, rfl⟩
    | again t =>
      obtain ⟨hinv', hlen⟩ := Inv.again g source target s t hinv ht
      exact ih t hinv' (by omega)

/-- The search loop of `findPath` ends within `width * height + 2` turns and
leaves a final state. -/
theorem search_total (g : Generator) (source target : Vec2i) :
    ∃ s', searchLoop g target (g.worldSize.x.toNat * g.worldSize.y.toNat + 2)
        (initial source) = some s' ∧ Final g source target s' := by
  obtain ⟨s', hs'⟩ := searchLoop_stops g source target
    (g.worldSize.x.toNat * g.worldSize.y.toNat + 2) (initial source)
    (initial_inv g source target) (by simp [initial])
  exact ⟨s', hs', searchLoop_final g source target _ _ _ (initial_inv g source target) hs'⟩

theorem Route.ne_nil (g : Generator) (source : Vec2i) (l : List Vec2i) (c : Nat)
    (h : Route g source l c) : l ≠ [] := by
  cases h <;> simp

theorem Route.getLast (g : Generator) (source : Vec2i) (l : List Vec2i) (c : Nat)
    (h : Route g source l c) : l.getLast? = some source := by
  induction h with
  | start => rfl
  | step i _ _ _ ih => simpa [List.getLast?_cons_cons] using ih

theorem moveCost_pos (i : Nat) : 10 ≤ moveCost i := by
  unfold moveCost; split <;> omega

/-! ## The pointer walk -/

theorem reconstruct_none (heap : Nat → Node) (n : Nat) : reconstruct heap n none = some [] := by
  cases n <;> rfl

/-- From any node of the two sets the walk along `parent` ends, within as many
steps as the node's `G`, and it reads off a route of cost `G`. -/
theorem Core.trail (g : Generator) (source target : Vec2i) (s : Search)
    (h : Core g source target s) :
    ∀ n p, p ∈ s.openSet ∨ p ∈ s.closedSet → (s.heap p).G ≤ n →
      ∃ l, reconstruct s.heap (n + 1) (some p) = some ((s.heap p).coordinates :: l) ∧
        Route g source ((s.heap p).coordinates :: l) (s.heap p).G := by
  intro n
  induction n with
  | zero =>
    intro p hp hG
    by_cases hp0 : p = 0
    · subst hp0
      refine ⟨[], ?_, ?_⟩
      · simp [reconstruct, h.start, Node.new]
      · rw [h.start]; exact Route.start
    · obtain ⟨q, i, _, _, _, _, h5, _, _⟩ := h.link p hp hp0
      have := moveCost_pos i
      omega
  | succ m ih =>
    intro p hp hG
    by_cases hp0 : p = 0
    · subst hp0
      refine ⟨[], ?_, ?_⟩
      · simp [reconstruct, h.start, Node.new]
      · rw [h.start]; exact Route.start
    · obtain ⟨q, i, h1, h2, h3, h4, h5, h6, _⟩ := h.link p hp hp0
      have := moveCost_pos i
      obtain ⟨l, hl, hr⟩ := ih q (Or.inr h2) (by omega)
      refine ⟨(s.heap q).coordinates :: l, ?_, ?_⟩
      · rw [reconstruct, h1, hl]; rfl
      · rw [h4, h5]
        rw [h4] at h6
        exact Route.step i hr h3 h6

/-! ## What `findPath` returns -/

/-- The state the search loop ends in, and the node the pointer walk starts
from: either the open set is empty and that node is the last one closed, or it
is a node of least score of the open set and lies on the target. -/
theorem search_result (g : Generator) (source target : Vec2i) :
    ∃ s b, searchLoop g target (g.worldSize.x.toNat * g.worldSize.y.toNat + 2)
        (initial source) = some { s with current := some b } ∧
      Inv g source target s ∧
      ((s.openSet = [] ∧ s.closedSet.getLast? = some b ∧ s.current = some b) ∨
        (b ∈ s.openSet ∧ (s.heap b).coordinates = target ∧
          ∀ x ∈ s.openSet, (s.heap b).getScore ≤ (s.heap x).getScore)) := by
  obtain ⟨s', hs', hfin⟩ := search_total g source target
  rcases hfin with ⟨hinv, ho⟩ | ⟨s, b, hinv, hb, hbt, hmin, rfl⟩
  · rcases hinv.root with ⟨ho', _⟩ | hz
    · rw [ho] at ho'; cases ho'
    · have hne : s'.closedSet ≠ [] := List.ne_nil_of_mem hz
      have hl : s'.closedSet.getLast? = some (s'.closedSet.getLast hne) :=
        List.getLast?_eq_getLast _ hne
      have hcur : s'.current = some (s'.closedSet.getLast hne) := hinv.last.trans hl
      refine ⟨s', s'.closedSet.getLast hne, ?_, hinv, Or.inl ⟨ho, hl, hcur⟩⟩
      rw [hs', ← hcur]
  · exact ⟨s, b, hs', hinv, Or.inr ⟨hb, hbt, hmin⟩⟩

/-- `findPath` always returns, and what it returns is a route from `source` to
the node the search ended on, of cost that node's `G`. -/
theorem findPath_route (g : Generator) (source target : Vec2i) :
    ∃ s b l, Inv g source target s ∧
      ((s.openSet = [] ∧ s.closedSet.getLast? = some b ∧ s.current = some b) ∨
        (b ∈ s.openSet ∧ (s.heap b).coordinates = target ∧
          ∀ x ∈ s.openSet, (s.heap b).getScore ≤ (s.heap x).getScore)) ∧
      searchLoop g target (g.worldSize.x.toNat * g.worldSize.y.toNat + 2)
        (initial source) = some { s with current := some b } ∧
      Returns g source target ((s.heap b).coordinates :: l) ∧
      Route g source ((s.heap b).coordinates :: l) (s.heap b).G := by
  obtain ⟨s, b, hs, hinv, hcase⟩ := search_result g source target
  have hlive : b ∈ s.openSet ∨ b ∈ s.closedSet := by
    rcases hcase with ⟨_, hl, _⟩ | ⟨hb, _, _⟩
    · exact Or.inr (List.mem_of_getLast?_eq_some hl)
    · exact Or.inl hb
  obtain ⟨l, hl, hr⟩ := Core.trail g source target s hinv.core (s.heap b).G b hlive le_rfl
  exact ⟨s, b, l, hinv, hcase, hs, returns_of_loops g source target _ _ _ _ hs hl, hr⟩

/-- `findPath` never returns the empty sequence. -/
theorem findPath_nonempty (g : Generator) (source target : Vec2i) :
    ∃ path, Returns g source target path ∧ path ≠ [] := by
  obtain ⟨s, b, l, _, _, _, hret, _⟩ := findPath_route g source target
  exact ⟨_, hret, by simp⟩

/-- With the open set empty, every cell a route leads to has been closed. -/
theorem Inv.closed_of_route (g : Generator) (source target : Vec2i) (s : Search)
    (h : Inv g source target s) (ho : s.openSet = []) (l : List Vec2i) (c : Nat)
    (hr : Route g source l c) :
    ∃ q ∈ s.closedSet, l.head? = some (s.heap q).coordinates := by
  induction hr with
  | start =>
    rcases h.root with ⟨ho', _⟩ | hz
    · rw [ho] at ho'; cases ho'
    · exact ⟨0, hz, by rw [h.core.start]; rfl⟩
  | step i _ hi hp ih =>
    obtain ⟨q, hq, hqc⟩ := ih
    simp only [List.head?_cons, Option.some.injEq] at hqc
    subst hqc
    obtain ⟨p, hpc, hp'⟩ := h.seen q hq i hi hp
    rcases hp' with hp' | ⟨hp', _⟩
    · exact ⟨p, hp', by simp [hpc]⟩
    · rw [ho] at hp'; cases hp'

/-- A reachable target ends the search on a node that lies on it. -/
theorem found_of_reachable (g : Generator) (source target : Vec2i) (s : Search) (b : Nat)
    (h : Inv g source target s) (hreach : Reachable g source target)
    (hcase : (s.openSet = [] ∧ s.closedSet.getLast? = some b ∧ s.current = some b) ∨
      (b ∈ s.openSet ∧ (s.heap b).coordinates = target ∧
        ∀ x ∈ s.openSet, (s.heap b).getScore ≤ (s.heap x).getScore)) :
    b ∈ s.openSet ∧ (s.heap b).coordinates = target := by
  rcases hcase with ⟨ho, _, _⟩ | ⟨hb, hbt, _⟩
  · obtain ⟨l, c, hr⟩ := hreach
    obtain ⟨q, hq, hqc⟩ := Inv.closed_of_route g source target s h ho _ c hr
    simp only [List.head?_cons, Option.some.injEq] at hqc
    exact absurd hqc.symm (h.core.closedNe q hq)
  · exact ⟨hb, hbt⟩

/-! ## Optimality under a consistent heuristic -/

/-- Along a route, either its end has been closed, or some node of the open set
has a score within the cost of the route plus the estimate at its end. -/
theorem Inv.route_front (g : Generator) (source target : Vec2i) (s : Search)
    (h : Inv g source target s) (hopt : Opt g source s) (hcons : Consistent g target)
    (hz : 0 ∈ s.closedSet) (l : List Vec2i) (c : Nat) (hr : Route g source l c) :
    ∃ v, l.head? = some v ∧
      ((∃ q ∈ s.closedSet, (s.heap q).coordinates = v) ∨
        ∃ m ∈ s.openSet, (s.heap m).getScore ≤ c + g.heuristic v target) := by
  induction hr with
  | start => exact ⟨source, rfl, Or.inl ⟨0, hz, by rw [h.core.start]; rfl⟩⟩
  | @step b l c i hr hi hp ih =>
    refine ⟨b + g.dir i, rfl, ?_⟩
    obtain ⟨v, hv, hcase⟩ := ih
    simp only [List.head?_cons, Option.some.injEq] at hv
    subst hv
    rcases hcase with ⟨q, hq, hqc⟩ | ⟨m, hm, hms⟩
    · subst hqc
      have hGq : (s.heap q).G ≤ c := hopt q hq l c hr
      obtain ⟨p, hpc, hp'⟩ := h.seen q hq i hi hp
      rcases hp' with hp' | ⟨hp', hG⟩
      · exact Or.inl ⟨p, hp', hpc⟩
      · right
        have hp0 : p ≠ 0 := fun e => h.core.disjoint p hp' (e ▸ hz)
        obtain ⟨_, _, _, _, _, _, _, _, h7⟩ := h.core.link p (Or.inl hp') hp0
        refine ⟨p, hp', ?_⟩
        unfold Node.getScore
        rw [h7, hpc]
        omega
    · right
      refine ⟨m, hm, ?_⟩
      have := hcons b i hi
      omega

/-- The node chosen for expansion already carries its least cost. -/
theorem Inv.select_opt (g : Generator) (source target : Vec2i) (s : Search)
    (h : Inv g source target s) (hopt : Opt g source s) (hcons : Consistent g target)
    (b : Nat) (hb : b ∈ s.openSet)
    (hmin : ∀ x ∈ s.openSet, (s.heap b).getScore ≤ (s.heap x).getScore)
    (l : List Vec2i) (c : Nat) (hr : Route g source ((s.heap b).coordinates :: l) c) :
    (s.heap b).G ≤ c := by
  rcases h.root with ⟨ho, _⟩ | hz
  · have hb0 : b = 0 := by rw [ho] at hb; simpa using hb
    rw [hb0, h.core.start]
    exact Nat.zero_le _
  · obtain ⟨v, hv, hcase⟩ := Inv.route_front g source target s h hopt hcons hz _ c hr
    simp only [List.head?_cons, Option.some.injEq] at hv
    subst hv
    rcases hcase with ⟨q, hq, hqc⟩ | ⟨m, hm, hms⟩
    · have : q = b := h.core.inj q b (Or.inr hq) (Or.inl hb) hqc
      exact absurd (this ▸ hq) (h.core.disjoint b hb)
    · have hb0 : b ≠ 0 := fun e => h.core.disjoint b hb (e ▸ hz)
      obtain ⟨_, _, _, _, _, _, _, _, h7⟩ := h.core.link b (Or.inl hb) hb0
      have h1 := hmin m hm
      unfold Node.getScore at h1 hms
      rw [h7] at h1
      omega

theorem Mid.visit_heap (g : Generator) (source target : Vec2i) (cur k : Nat) (s : Search)
    (h : Mid g source target cur k s) :
    ∀ q ∈ s.closedSet, (visit g target cur s k).heap q = s.heap q := by
  intro q hq
  rcases visit_cases g target cur s k with
    ⟨he, _⟩ | ⟨_, _, _, he⟩ | ⟨_, _, p, hp, _, _, he⟩ | ⟨_, _, p, _, _, _, he⟩
  · rw [he]
  · rw [he]
    exact Function.update_noteq (ne_of_lt (h.core.lt_next q (Or.inr hq))) _ _
  · rw [he]
    exact Function.update_noteq (fun e : q = p => h.core.disjoint p hp (e ▸ hq)) _ _
  · rw [he]

theorem Mid.steps_heap (g : Generator) (source target : Vec2i) (cur : Nat) (s : Search)
    (h : Mid g source target cur 0 s) :
    ∀ k, k ≤ g.directions → ∀ q ∈ s.closedSet,
      ((List.range k).foldl (visit g target cur) s).heap q = s.heap q := by
  intro k
  induction k with
  | zero => intro _ q _; rfl
  | succ n ih =>
    intro hle q hq
    rw [List.range_succ, List.foldl_append]
    have hm := Mid.steps g source target cur s h n (by omega)
    have hcl := (foldl_visit_closedSet g target cur (List.range n) s).1
    simp only [List.foldl_cons, List.foldl_nil]
    rw [Mid.visit_heap g source target cur n _ hm q (by rw [hcl]; exact hq)]
    exact ih (by omega) q hq

/-- A turn that goes on keeps the closed nodes at their least costs. -/
theorem Opt.preserved (g : Generator) (source target : Vec2i) (s s' : Search)
    (h : Inv g source target s) (hopt : Opt g source s) (hcons : Consistent g target)
    (ht : turn g target s = .again s') : Opt g source s' := by
  rcases turn_cases g target s with ⟨_, he⟩ | ⟨b, pre, post, hop, hmin, _, ⟨_, he⟩ | ⟨hb, he⟩⟩
  · rw [he] at ht; cases ht
  · rw [he] at ht; cases ht
  · rw [he] at ht
    injection ht with ht
    subst ht
    have hmid := Inv.close g source target s
      { s with current := some b, closedSet := s.closedSet ++ [b], openSet := pre ++ post }
      b pre post h hop hb rfl rfl rfl rfl rfl
    intro q hq l c hr
    rw [expand_closedSet] at hq
    have hheap := Mid.steps_heap g source target b _ hmid g.directions le_rfl q hq
    have hheap' : (expand g target b
        { s with current := some b, closedSet := s.closedSet ++ [b],
                 openSet := pre ++ post }).heap q = s.heap q := hheap
    rw [hheap'] at hr ⊢
    rcases List.mem_append.1 hq with hq | hq
    · exact hopt q hq l c hr
    · rw [List.mem_singleton] at hq
      subst hq
      exact Inv.select_opt g source target s h hopt hcons q (by rw [hop]; simp) hmin l c hr

theorem searchLoop_opt (g : Generator) (source target : Vec2i) (hcons : Consistent g target)
    (fuel : Nat) :
    ∀ s s' : Search, Inv g source target s → Opt g source s →
      searchLoop g target fuel s = some s' → Opt g source s' := by
  induction fuel with
  | zero => intro s s' _ _ h; simp [searchLoop] at h
  | succ n ih =>
    intro s s' hinv hopt h
    simp only [searchLoop] at h
    cases ht : turn g target s with
    | exit t =>
      rw [ht] at h
      injection h with h
      subst h
      rcases turn_cases g target s with
        ⟨_, he⟩ | ⟨b, pre, post, hop, hmin, _, ⟨_, he⟩ | ⟨hb, he⟩⟩
      · rw [he] at ht; injection ht with ht; subst ht; exact hopt
      · rw [he] at ht; injection ht with ht; subst ht; exact hopt
      · rw [he] at ht; cases ht
    | again t =>
      rw [ht] at h
      exact ih t s' (Inv.again g source target s t hinv ht).1
        (Opt.preserved g source target s t hinv hopt hcons ht) h

/-- With a consistent heuristic and a reachable target, `findPath` returns a
route from `source` to `target` of least cost. -/
theorem findPath_least (g : Generator) (source target : Vec2i)
    (hcons : Consistent g target) (hreach : Reachable g source target) :
    ∃ l c, Returns g source target (target :: l) ∧ Route g source (target :: l) c ∧
      ∀ l' c', Route g source (target :: l') c' → c ≤ c' := by
  obtain ⟨s, b, l, hinv, hcase, hs, hret, hroute⟩ := findPath_route g source target
  obtain ⟨hb, hbt⟩ := found_of_reachable g source target s b hinv hreach hcase
  have hopt : Opt g source s :=
    searchLoop_opt g source target hcons _ _ { s with current := some b }
      (initial_inv g source target) (by intro q hq; simp [initial] at hq) hs
  have hmin : ∀ x ∈ s.openSet, (s.heap b).getScore ≤ (s.heap x).getScore := by
    rcases hcase with ⟨ho, _, _⟩ | ⟨_, _, hmin⟩
    · rw [ho] at hb; cases hb
    · exact hmin
  rw [hbt] at hret hroute
  refine ⟨l, (s.heap b).G, hret, hroute, ?_⟩
  intro l' c' hr'
  exact Inv.select_opt g source target s hinv hopt hcons b hb hmin l' c' (hbt ▸ hr')

/-! ## Configured generators -/

theorem foldl_addCollision (obstacles : List Vec2i) :
    ∀ g : Generator, obstacles.foldl Generator.addCollision g =
      { g with walls := g.walls ++ obstacles } := by
  induction obstacles with
  | nil => intro g; simp
  | cons a rest ih =>
    intro g
    rw [List.foldl_cons, ih]
    simp [Generator.addCollision]

theorem configure_eq (width height : Int) (diagonal : Bool)
    (heuristic : Vec2i → Vec2i → Nat) (obstacles : List Vec2i) :
    configure width height diagonal heuristic obstacles =
      { heuristic := heuristic
        direction := directionTable
        walls := obstacles
        worldSize := ⟨width, height⟩
        directions := if diagonal then 8 else 4 } := by
  unfold configure
  rw [foldl_addCollision]
  simp [Generator.new, Generator.setWorldSize, Generator.setDiagonalMovement,
    Generator.setHeuristic]

theorem Vec2i.add_x (a b : Vec2i) : (a + b).x = a.x + b.x := rfl

theorem Vec2i.add_y (a b : Vec2i) : (a + b).y = a.y + b.y := rfl

theorem isqrtGo_spec (n : Nat) :
    ∀ fuel r, r * r ≤ n → n ≤ fuel + r →
      Heuristic.isqrtGo n fuel r * Heuristic.isqrtGo n fuel r ≤ n ∧
        n < (Heuristic.isqrtGo n fuel r + 1) * (Heuristic.isqrtGo n fuel r + 1) := by
  intro fuel
  induction fuel with
  | zero =>
    intro r hr hn
    simp only [Heuristic.isqrtGo]
    refine ⟨hr, ?_⟩
    nlinarith
  | succ m ih =>
    intro r hr hn
    simp only [Heuristic.isqrtGo]
    split
    · next h => exact ih (r + 1) h (by omega)
    · next h => exact ⟨hr, by omega⟩

theorem isqrt_spec (n : Nat) :
    Heuristic.isqrt n * Heuristic.isqrt n ≤ n ∧
      n < (Heuristic.isqrt n + 1) * (Heuristic.isqrt n + 1) :=
  isqrtGo_spec n n 0 (by simp) (by simp)

/-- The integer square root is the floor of the square root. -/
theorem isqrt_eq_sqrt (n : Nat) : Heuristic.isqrt n = Nat.sqrt n :=
  Nat.eq_sqrt.2 (isqrt_spec n)

theorem manhattan_eq (a b : Vec2i) :
    (Heuristic.manhattan a b : Int) = 10 * (|a.x - b.x| + |a.y - b.y|) := by
  unfold Heuristic.manhattan Heuristic.getDelta
  have h1 := abs_nonneg (a.x - b.x)
  have h2 := abs_nonneg (a.y - b.y)
  simp only []
  omega

theorem octagonal_eq (a b : Vec2i) :
    (Heuristic.octagonal a b : Int) =
      10 * (|a.x - b.x| + |a.y - b.y|) - 6 * min |a.x - b.x| |a.y - b.y| := by
  unfold Heuristic.octagonal Heuristic.getDelta
  have h1 := abs_nonneg (a.x - b.x)
  have h2 := abs_nonneg (a.y - b.y)
  simp only []
  omega

theorem euclidean_sq (a b : Vec2i) :
    (Heuristic.euclidean a b : Int) * Heuristic.euclidean a b ≤
        100 * ((a.x - b.x) ^ 2 + (a.y - b.y) ^ 2) ∧
      100 * ((a.x - b.x) ^ 2 + (a.y - b.y) ^ 2) <
        ((Heuristic.euclidean a b : Int) + 1) * (Heuristic.euclidean a b + 1) := by
  unfold Heuristic.euclidean Heuristic.getDelta
  simp only [sq_abs]
  have hnn : 0 ≤ (a.x - b.x) ^ 2 + (a.y - b.y) ^ 2 := by positivity
  obtain ⟨h1, h2⟩ := isqrt_spec (100 * ((a.x - b.x) ^ 2 + (a.y - b.y) ^ 2).toNat)
  have hc : ((100 * ((a.x - b.x) ^ 2 + (a.y - b.y) ^ 2).toNat : Nat) : Int) =
      100 * ((a.x - b.x) ^ 2 + (a.y - b.y) ^ 2) := by
    push_cast
    rw [Int.toNat_of_nonneg hnn]
  constructor
  · rw [← hc]; exact_mod_cast h1
  · rw [← hc]; exact_mod_cast h2

/-- The arithmetic of one orthogonal step under the truncated Euclidean
estimate. -/
theorem euclid_step (X Y X' Y' : Int) (e e' : Nat)
    (h1 : (e : Int) * e ≤ 100 * (X ^ 2 + Y ^ 2))
    (h2 : 100 * (X' ^ 2 + Y' ^ 2) < ((e' : Int) + 1) * (e' + 1))
    (hd : ((X' = X + 1 ∨ X' = X - 1) ∧ Y' = Y) ∨ ((Y' = Y + 1 ∨ Y' = Y - 1) ∧ X' = X)) :
    e ≤ 10 + e' := by
  by_contra hcon
  have hge : (e' : Int) + 11 ≤ e := by omega
  have he' : (0 : Int) ≤ e' := Int.natCast_nonneg _
  have hsq : ((e' : Int) + 11) * (e' + 11) ≤ 100 * (X ^ 2 + Y ^ 2) := by nlinarith
  have hx1 : 10 * X' < e' + 1 := by nlinarith [sq_nonneg Y', sq_nonneg (10 * X' - (e' + 1))]
  have hx2 : -(10 * X') < e' + 1 := by nlinarith [sq_nonneg Y', sq_nonneg (10 * X' + (e' + 1))]
  have hy1 : 10 * Y' < e' + 1 := by nlinarith [sq_nonneg X', sq_nonneg (10 * Y' - (e' + 1))]
  have hy2 : -(10 * Y') < e' + 1 := by nlinarith [sq_nonneg X', sq_nonneg (10 * Y' + (e' + 1))]
  rcases hd with ⟨hX | hX, hY⟩ | ⟨hY | hY, hX⟩
  · have : X = X' - 1 := by omega
    subst this; subst hY
    nlinarith
  · have : X = X' + 1 := by omega
    subst this; subst hY
    nlinarith
  · have : Y = Y' - 1 := by omega
    subst this; subst hX
    nlinarith
  · have : Y = Y' + 1 := by omega
    subst this; subst hX
    nlinarith

/-! ## Consistency of the heuristics -/

theorem dir_table (g : Generator) (hd : g.direction = directionTable) :
    g.dir 0 = ⟨0, 1⟩ ∧ g.dir 1 = ⟨1, 0⟩ ∧ g.dir 2 = ⟨0, -1⟩ ∧ g.dir 3 = ⟨-1, 0⟩ ∧
    g.dir 4 = ⟨-1, -1⟩ ∧ g.dir 5 = ⟨1, 1⟩ ∧ g.dir 6 = ⟨-1, 1⟩ ∧ g.dir 7 = ⟨1, -1⟩ := by
  unfold Generator.dir
  rw [hd]
  simp [directionTable]

theorem manhattan_step (a t d : Vec2i)
    (hd : (d.x = 0 ∧ (d.y = 1 ∨ d.y = -1)) ∨ (d.y = 0 ∧ (d.x = 1 ∨ d.x = -1))) :
    Heuristic.manhattan a t ≤ 10 + Heuristic.manhattan (a + d) t := by
  have h1 := manhattan_eq a t
  have h2 := manhattan_eq (a + d) t
  rw [Vec2i.add_x, Vec2i.add_y] at h2
  simp only [abs_eq_max_neg] at h1 h2
  omega

theorem octagonal_step (a t d : Vec2i)
    (hd : (d.x = 0 ∧ (d.y = 1 ∨ d.y = -1)) ∨ (d.y = 0 ∧ (d.x = 1 ∨ d.x = -1))) :
    Heuristic.octagonal a t ≤ 10 + Heuristic.octagonal (a + d) t := by
  have h1 := octagonal_eq a t
  have h2 := octagonal_eq (a + d) t
  rw [Vec2i.add_x, Vec2i.add_y] at h2
  simp only [abs_eq_max_neg] at h1 h2
  omega

theorem octagonal_diagonal (a t d : Vec2i)
    (hd : (d.x = 1 ∨ d.x = -1) ∧ (d.y = 1 ∨ d.y = -1)) :
    Heuristic.octagonal a t ≤ 14 + Heuristic.octagonal (a + d) t := by
  have h1 := octagonal_eq a t
  have h2 := octagonal_eq (a + d) t
  rw [Vec2i.add_x, Vec2i.add_y] at h2
  simp only [abs_eq_max_neg] at h1 h2
  omega

theorem euclidean_step (a t d : Vec2i)
    (hd : (d.x = 0 ∧ (d.y = 1 ∨ d.y = -1)) ∨ (d.y = 0 ∧ (d.x = 1 ∨ d.x = -1))) :
    Heuristic.euclidean a t ≤ 10 + Heuristic.euclidean (a + d) t := by
  obtain ⟨h1, _⟩ := euclidean_sq a t
  obtain ⟨_, h2⟩ := euclidean_sq (a + d) t
  rw [Vec2i.add_x, Vec2i.add_y] at h2
  refine euclid_step (a.x - t.x) (a.y - t.y) (a.x + d.x - t.x) (a.y + d.y - t.y) _ _ h1 h2 ?_
  rcases hd with ⟨hx, hy | hy⟩ | ⟨hy, hx | hx⟩
  · right; exact ⟨Or.inl (by omega), by omega⟩
  · right; exact ⟨Or.inr (by omega), by omega⟩
  · left; exact ⟨Or.inl (by omega), by omega⟩
  · left; exact ⟨Or.inr (by omega), by omega⟩

/-- On the table of the constructor, a heuristic that loses at most 10 over
an orthogonal step is consistent for 4-directional movement. -/
theorem consistent_four (g : Generator) (target : Vec2i) (hd : g.direction = directionTable)
    (hn : g.directions = 4)
    (H : ∀ a d : Vec2i,
      (d.x = 0 ∧ (d.y = 1 ∨ d.y = -1)) ∨ (d.y = 0 ∧ (d.x = 1 ∨ d.x = -1)) →
      g.heuristic a target ≤ 10 + g.heuristic (a + d) target) :
    Consistent g target := by
  intro a i hi
  rw [hn] at hi
  obtain ⟨h0, h1, h2, h3, _⟩ := dir_table g hd
  interval_cases i
  · rw [h0]; exact H a _ (by simp)
  · rw [h1]; exact H a _ (by simp)
  · rw [h2]; exact H a _ (by simp)
  · rw [h3]; exact H a _ (by simp)

/-- The octagonal heuristic is consistent for both movement modes. -/
theorem consistent_octagonal (g : Generator) (target : Vec2i)
    (hd : g.direction = directionTable) (hn : g.directions ≤ 8)
    (hh : g.heuristic = Heuristic.octagonal) : Consistent g target := by
  intro a i hi
  have hi8 : i < 8 := lt_of_lt_of_le hi hn
  obtain ⟨h0, h1, h2, h3, h4, h5, h6, h7⟩ := dir_table g hd
  rw [hh]
  interval_cases i
  · rw [h0]; exact octagonal_step a target _ (by simp)
  · rw [h1]; exact octagonal_step a target _ (by simp)
  · rw [h2]; exact octagonal_step a target _ (by simp)
  · rw [h3]; exact octagonal_step a target _ (by simp)
  · rw [h4]; exact octagonal_diagonal a target _ (by simp)
  · rw [h5]; exact octagonal_diagonal a target _ (by simp)
  · rw [h6]; exact octagonal_diagonal a target _ (by simp)
  · rw [h7]; exact octagonal_diagonal a target _ (by simp)

/-! ## Routes of a configured generator -/

/-- Routes do not depend on the heuristic. -/
theorem Route.congr (g g' : Generator) (source : Vec2i) (l : List Vec2i) (c : Nat)
    (h : Route g source l c) (hd : g'.direction = g.direction)
    (hn : g'.directions = g.directions) (hw : g'.walls = g.walls)
    (hs : g'.worldSize = g.worldSize) : Route g' source l c := by
  have hdir : ∀ i, g'.dir i = g.dir i := by intro i; simp [Generator.dir, hd]
  have hcol : ∀ a, g'.detectCollision a = g.detectCollision a := by
    intro a; simp [Generator.detectCollision, hw, hs]
  induction h with
  | start => exact Route.start
  | @step b l c i _ hi hp ih =>
    have := Route.step (g := g') i ih (hn ▸ hi) (by rw [hdir, hcol]; exact hp)
    rwa [hdir] at this

/-- With 4-directional movement every step of a route costs 10. -/
theorem Route.cost_four (g : Generator) (source : Vec2i) (l : List Vec2i) (c : Nat)
    (h : Route g source l c) (hn : g.directions = 4) : c = 10 * (l.length - 1) := by
  induction h with
  | start => simp
  | @step b l c i _ hi _ ih =>
    have hm : moveCost i = 10 := by
      unfold moveCost
      rw [if_pos (by omega)]
    simp only [List.length_cons] at ih ⊢
    omega

theorem configureDefault_eq (worldSize₀ : Vec2i) (width height : Int)
    (obstacles : List Vec2i) :
    configureDefault worldSize₀ width height obstacles =
      { heuristic := Heuristic.manhattan
        direction := directionTable
        walls := obstacles
        worldSize := ⟨width, height⟩
        directions := 4 } := by
  unfold configureDefault
  rw [foldl_addCollision]
  simp [Generator.new, Generator.setWorldSize]

/-- A consistent heuristic never exceeds the cost of a route to the target. -/
theorem Route.lower_bound (g : Generator) (source target : Vec2i)
    (hcons : Consistent g target) (l : List Vec2i) (c : Nat) (h : Route g source l c) :
    ∀ v, l.head? = some v → g.heuristic source target ≤ c + g.heuristic v target := by
  induction h with
  | start => intro v hv; simp at hv; subst hv; simp
  | @step b l c i _ hi _ ih =>
    intro v hv
    simp only [List.head?_cons, Option.some.injEq] at hv
    subst hv
    have h1 := ih b rfl
    have h2 := hcons b i hi
    omega

theorem manhattan_self (a : Vec2i) : Heuristic.manhattan a a = 0 := by
  have := manhattan_eq a a
  simp at this
  exact_mod_cast this

theorem octagonal_self (a : Vec2i) : Heuristic.octagonal a a = 0 := by
  have := octagonal_eq a a
  simp at this
  exact_mod_cast this

theorem euclidean_self (a : Vec2i) : Heuristic.euclidean a a = 0 := by
  obtain ⟨h1, _⟩ := euclidean_sq a a
  simp at h1
  have : (Heuristic.euclidean a a : Int) = 0 := by nlinarith [Int.natCast_nonneg (Heuristic.euclidean a a)]
  exact_mod_cast this

theorem manhattan_minCostFour (a b : Vec2i) : Heuristic.manhattan a b = minCostFour a b := by
  have h := manhattan_eq a b
  unfold minCostFour
  simp only [abs_eq_max_neg] at h
  omega

theorem octagonal_minCostEight (a b : Vec2i) : Heuristic.octagonal a b = minCostEight a b := by
  have h := octagonal_eq a b
  unfold minCostEight
  simp only [abs_eq_max_neg] at h
  omega

theorem octagonal_le_minCostFour (a b : Vec2i) : Heuristic.octagonal a b ≤ minCostFour a b := by
  have h := octagonal_eq a b
  unfold minCostFour
  simp only [abs_eq_max_neg] at h
  omega

theorem euclidean_le_minCostFour (a b : Vec2i) : Heuristic.euclidean a b ≤ minCostFour a b := by
  obtain ⟨h1, _⟩ := euclidean_sq a b
  unfold minCostFour
  by_contra hcon
  have hlt : ((10 * ((a.x - b.x).natAbs + (a.y - b.y).natAbs) : Nat) : Int) <
      (Heuristic.euclidean a b : Int) := by exact_mod_cast not_le.1 hcon
  push_cast at hlt
  rw [← sq_abs (a.x - b.x), ← sq_abs (a.y - b.y)] at h1
  have hX : (0 : Int) ≤ |a.x - b.x| := abs_nonneg _
  have hY : (0 : Int) ≤ |a.y - b.y| := abs_nonneg _
  generalize |a.x - b.x| = X at h1 hlt hX
  generalize |a.y - b.y| = Y at h1 hlt hY
  have h3 := mul_self_lt_mul_self (by positivity) hlt
  nlinarith [mul_nonneg hX hY]

/-- C5. For every generator and every coordinate `c`, `findPath(c, c)` returns
the sequence that holds `c` alone. -/
theorem findPath_same (g : Generator) (c : Vec2i) : Returns g c c [c] := by
  refine returns_of_findPath g c c 1 [c] ?_
  simp [findPath, searchLoop, turn, initial, scanOpen, reconstruct, Node.new]

/-- C6, evaluated at the failing input. On a 3x3 grid with obstacles (1,2) and
(2,1) every neighbour of the target (2,2) is an obstacle or out of bounds, the
source (0,0) differs from it, and `findPath` returns the three coordinates
(0,2), (0,1), (0,0), not the empty sequence. -/
theorem findPath_enclosed_target :
    (∀ i, i < 4 → (configure 3 3 false Heuristic.manhattan [⟨1, 2⟩, ⟨2, 1⟩]).detectCollision
      (⟨2, 2⟩ + (configure 3 3 false Heuristic.manhattan [⟨1, 2⟩, ⟨2, 1⟩]).dir i) = true) ∧
    Returns (configure 3 3 false Heuristic.manhattan [⟨1, 2⟩, ⟨2, 1⟩]) ⟨0, 0⟩ ⟨2, 2⟩
      [⟨0, 2⟩, ⟨0, 1⟩, ⟨0, 0⟩] :=
  ⟨by decide, returns_of_findPath _ _ _ 20 _ (by decide!)⟩

/-- C10. Detour scenario: on a 25x25 grid whose only obstacle is (1,0), with
4-directional movement and the Manhattan heuristic, `findPath((0,0),(2,0))`
returns five coordinates from (2,0) back to (0,0), none of them (1,0), each
one an orthogonal step from the next, of total cost 40. -/
theorem findPath_detour :
    ∃ path, Returns (configure 25 25 false Heuristic.manhattan [⟨1, 0⟩]) ⟨0, 0⟩ ⟨2, 0⟩ path ∧
      path.length = 5 ∧ path.head? = some ⟨2, 0⟩ ∧ path.getLast? = some ⟨0, 0⟩ ∧
      (⟨1, 0⟩ : Vec2i) ∉ path ∧
      List.Chain' (fun a b => ∃ d ∈ directionTable.take 4, a = b + d) path ∧
      pathCost path = 40 :=
  ⟨[⟨2, 0⟩, ⟨2, 1⟩, ⟨1, 1⟩, ⟨0, 1⟩, ⟨0, 0⟩], returns_of_findPath _ _ _ 10 _ (by decide!),
    by decide, by decide, by decide, by decide,
    by simp only [List.chain'_cons, List.chain'_singleton, and_true]; decide, by decide⟩

/-- The three heuristics are consistent for 4-directional movement, and the
octagonal one for 8-directional movement as well. -/
theorem configure_consistent (width height : Int) (diagonal : Bool)
    (heuristic : Vec2i → Vec2i → Nat) (obstacles : List Vec2i) (target : Vec2i)
    (hh : heuristic = Heuristic.octagonal ∨
      (diagonal = false ∧
        (heuristic = Heuristic.manhattan ∨ heuristic = Heuristic.euclidean))) :
    Consistent (configure width height diagonal heuristic obstacles) target := by
  rw [configure_eq]
  rcases hh with rfl | ⟨rfl, rfl | rfl⟩
  · exact consistent_octagonal _ target rfl (by cases diagonal <;> simp) rfl
  · exact consistent_four _ target rfl rfl (fun a d hd => manhattan_step a target d hd)
  · exact consistent_four _ target rfl rfl (fun a d hd => euclidean_step a target d hd)

/-- C1. Shortest path in the default configuration: for every world size,
obstacle list, source and target such that the target can be reached from the
source by orthogonal steps through passable cells, `findPath` on a generator
left with 4-directional movement and the Manhattan heuristic returns a valid
path from the source to the target whose number of steps, its length less one,
is the least among all valid paths from the source to the target.  (The claim
also assumes a positive world size and a source and target inside the world
and off the obstacles; the proof does not need them.) -/
theorem findPath_shortest_default (worldSize₀ : Vec2i) (width height : Int)
    (obstacles : List Vec2i) (source target : Vec2i)
    (hreach : Reachable (configureDefault worldSize₀ width height obstacles) source target) :
    ∃ l, Returns (configureDefault worldSize₀ width height obstacles) source target
        (target :: l) ∧
      (∃ c, Route (configureDefault worldSize₀ width height obstacles) source (target :: l) c) ∧
      ∀ l' c', Route (configureDefault worldSize₀ width height obstacles) source
          (target :: l') c' →
        (target :: l).length - 1 ≤ (target :: l').length - 1 := by
  have hn : (configureDefault worldSize₀ width height obstacles).directions = 4 := by
    rw [configureDefault_eq]
  have hcons : Consistent (configureDefault worldSize₀ width height obstacles) target := by
    rw [configureDefault_eq]
    exact consistent_four _ target rfl rfl (fun a d hd => manhattan_step a target d hd)
  obtain ⟨l, c, hret, hroute, hmin⟩ := findPath_least _ source target hcons hreach
  refine ⟨l, hret, ⟨c, hroute⟩, ?_⟩
  intro l' c' hr'
  have h1 := Route.cost_four _ source _ _ hroute hn
  have h2 := Route.cost_four _ source _ _ hr' hn
  have h3 := hmin l' c' hr'
  omega

/-- On a 3x3 grid with an obstacle at (1,0) the target (1,1) is reachable from
(0,0), and the returned path is a shortest one. -/
theorem findPath_shortest_default_witness :
    Reachable (configureDefault ⟨0, 0⟩ 3 3 [⟨1, 0⟩]) ⟨0, 0⟩ ⟨1, 1⟩ ∧
    ∃ l, Returns (configureDefault ⟨0, 0⟩ 3 3 [⟨1, 0⟩]) ⟨0, 0⟩ ⟨1, 1⟩ (⟨1, 1⟩ :: l) ∧
      (∃ c, Route (configureDefault ⟨0, 0⟩ 3 3 [⟨1, 0⟩]) ⟨0, 0⟩ (⟨1, 1⟩ :: l) c) ∧
      ∀ l' c', Route (configureDefault ⟨0, 0⟩ 3 3 [⟨1, 0⟩]) ⟨0, 0⟩ (⟨1, 1⟩ :: l') c' →
        ((⟨1, 1⟩ : Vec2i) :: l).length - 1 ≤ ((⟨1, 1⟩ : Vec2i) :: l').length - 1 :=
  have hreach : Reachable (configureDefault ⟨0, 0⟩ 3 3 [⟨1, 0⟩]) ⟨0, 0⟩ ⟨1, 1⟩ :=
    ⟨[⟨0, 1⟩, ⟨0, 0⟩], 20,
      Route.step (b := ⟨0, 1⟩) 1 (Route.step (b := ⟨0, 0⟩) 0 Route.start (by decide) (by decide))
        (by decide) (by decide)⟩
  ⟨hreach, findPath_shortest_default ⟨0, 0⟩ 3 3 [⟨1, 0⟩] ⟨0, 0⟩ ⟨1, 1⟩ hreach⟩

/-! ## The states at the head of the loop -/

/-- The invariant holds each time the loop condition is evaluated. -/
theorem Reached.inv (g : Generator) (source target : Vec2i) (s : Search)
    (h : Reached g source target s) : Inv g source target s := by
  induction h with
  | start => exact initial_inv g source target
  | next _ ht ih => exact (Inv.again g source target _ _ ih ht).1

/-- A state reached at the head of the loop from which the loop ends has been
reached by the loop started in the initial state. -/
theorem Reached.loop (g : Generator) (source target : Vec2i) (s : Search)
    (h : Reached g source target s) :
    ∀ fuel s', searchLoop g target fuel s = some s' →
      ∃ n, searchLoop g target n (initial source) = some s' := by
  induction h with
  | start => intro fuel s' hs; exact ⟨fuel, hs⟩
  | @next s₀ s₁ _ ht ih =>
    intro fuel s' hs
    refine ih (fuel + 1) s' ?_
    simp only [searchLoop, ht]
    exact hs

/-- A passable neighbour of the source is found in one step, whatever else is
blocked, when the heuristic vanishes on the target and is at least 5 elsewhere. -/
theorem adjacent_direct (g : Generator) (source : Vec2i) (i : Nat) (hi : i < g.directions)
    (hpass : g.detectCollision (source + g.dir i) = false)
    (hne : source + g.dir i ≠ source)
    (hzero : g.heuristic (source + g.dir i) (source + g.dir i) = 0)
    (hfar : ∀ v, v ≠ source + g.dir i → 5 ≤ g.heuristic v (source + g.dir i)) :
    Returns g source (source + g.dir i) [source + g.dir i, source] := by
  generalize ht : source + g.dir i = target at hpass hne hzero hfar
  have h0 := initial_inv g source target
  rcases turn_cases g target (initial source) with
    ⟨ho, _⟩ | ⟨b, pre, post, hop, _, _, ⟨hb, _⟩ | ⟨_, he⟩⟩
  · simp [initial] at ho
  · have hb0 : b ∈ (initial source).openSet := by rw [hop]; simp
    have hb0 : b = 0 := by simpa [initial] using hb0
    subst hb0
    exact absurd hb (by simpa [initial, Node.new] using hne.symm)
  have hr1 : Reached g source target _ := Reached.next Reached.start he
  generalize hs1 : expand g target b
    { initial source with
      current := some b, closedSet := (initial source).closedSet ++ [b],
      openSet := pre ++ post } = s₁ at he hr1
  have hb0 : b ∈ (initial source).openSet := by rw [hop]; simp
  have hb0 : b = 0 := by simpa [initial] using hb0
  subst hb0
  have hcl : s₁.closedSet = [0] := by
    rw [← hs1, expand_closedSet]
    simp [initial]
  have h1 := Reached.inv g source target s₁ hr1
  have hz : 0 ∈ s₁.closedSet := by rw [hcl]; simp
  have hc0 : (s₁.heap 0).coordinates = source := by rw [h1.core.start]; rfl
  have hG0 : (s₁.heap 0).G = 0 := by rw [h1.core.start]; rfl
  have hP0 : (s₁.heap 0).parent = none := by rw [h1.core.start]; rfl
  -- every node of the open set is a child of the start node
  have hchild : ∀ x ∈ s₁.openSet, (s₁.heap x).parent = some 0 ∧ 10 ≤ (s₁.heap x).G ∧
      (s₁.heap x).H = g.heuristic (s₁.heap x).coordinates target := by
    intro x hx
    have hx0 : x ≠ 0 := fun hx0 => h1.core.disjoint x hx (hx0 ▸ hz)
    obtain ⟨q, j, hq1, hq2, _, _, hq5, _, hq7⟩ := h1.core.link x (Or.inl hx) hx0
    rw [hcl] at hq2
    have hq : q = 0 := by simpa using hq2
    subst hq
    have := moveCost_pos j
    exact ⟨hq1, by omega, hq7⟩
  -- the target is in the open set
  obtain ⟨p, hpc, hp⟩ := h1.seen 0 hz i hi (by rw [hc0, ht]; exact hpass)
  rw [hc0, ht] at hpc
  have hpo : p ∈ s₁.openSet ∧ (s₁.heap p).G ≤ 14 := by
    rcases hp with hp | ⟨hp, hG⟩
    · rw [hcl] at hp
      have hp0 : p = 0 := by simpa using hp
      subst hp0
      exact absurd (hc0.symm.trans hpc) hne.symm
    · refine ⟨hp, ?_⟩
      rw [hG0] at hG
      have : moveCost i ≤ 14 := by unfold moveCost; split <;> omega
      omega
  have hpH : (s₁.heap p).H = 0 := by
    rw [(hchild p hpo.1).2.2, hpc]
    exact hzero
  rcases turn_cases g target s₁ with
    ⟨ho, _⟩ | ⟨b, pre', post', hop', hmin, _, ⟨hb, he'⟩ | ⟨hb, _⟩⟩
  · rw [ho] at hpo; simp at hpo
  · have hbo : b ∈ s₁.openSet := by rw [hop']; simp
    have hloop : searchLoop g target 1 s₁ = some { s₁ with current := some b } := by
      simp only [searchLoop, he']
    obtain ⟨n, hn⟩ := Reached.loop g source target s₁ hr1 1 _ hloop
    refine returns_of_loops g source target n 3 _ _ hn ?_
    show reconstruct s₁.heap 3 (some b) = _
    simp only [reconstruct, (hchild b hbo).1, hP0, hb, hc0, Option.map_some']
  · have hbo : b ∈ s₁.openSet := by rw [hop']; simp
    have h5 := hfar _ hb
    have h6 := hchild b hbo
    have h7 := hmin p hpo.1
    unfold Node.getScore at h7
    rw [h6.2.2, hpH] at h7
    omega

theorem manhattan_far (v t : Vec2i) (h : v ≠ t) : 5 ≤ Heuristic.manhattan v t := by
  have h1 := manhattan_eq v t
  have hd : v.x ≠ t.x ∨ v.y ≠ t.y := by
    by_contra hc
    push_neg at hc
    exact h (by cases v; cases t; simp_all)
  simp only [abs_eq_max_neg] at h1
  omega

theorem octagonal_far (v t : Vec2i) (h : v ≠ t) : 5 ≤ Heuristic.octagonal v t := by
  have h1 := octagonal_eq v t
  have hd : v.x ≠ t.x ∨ v.y ≠ t.y := by
    by_contra hc
    push_neg at hc
    exact h (by cases v; cases t; simp_all)
  simp only [abs_eq_max_neg] at h1
  omega

theorem euclidean_far (v t : Vec2i) (h : v ≠ t) : 5 ≤ Heuristic.euclidean v t := by
  obtain ⟨_, h2⟩ := euclidean_sq v t
  have hd : v.x ≠ t.x ∨ v.y ≠ t.y := by
    by_contra hc
    push_neg at hc
    exact h (by cases v; cases t; simp_all)
  have hpos : 1 ≤ (v.x - t.x) ^ 2 + (v.y - t.y) ^ 2 := by
    rcases hd with hd | hd
    · have : 0 < (v.x - t.x) ^ 2 := by
        have : v.x - t.x ≠ 0 := sub_ne_zero.2 hd
        positivity
      have := sq_nonneg (v.y - t.y)
      omega
    · have : 0 < (v.y - t.y) ^ 2 := by
        have : v.y - t.y ≠ 0 := sub_ne_zero.2 hd
        positivity
      have := sq_nonneg (v.x - t.x)
      omega
  by_contra hlt
  push_neg at hlt
  have h4 : ((Heuristic.euclidean v t : Nat) : Int) ≤ 4 := by exact_mod_cast Nat.lt_succ_iff.1 hlt
  have h0 : (0 : Int) ≤ (Heuristic.euclidean v t : Nat) := Int.ofNat_nonneg _
  nlinarith

/-! ## The Euclidean heuristic in double arithmetic -/

theorem bitsGo_zero (fuel : Nat) : Heuristic.bitsGo fuel 0 = 0 := by
  cases fuel <;> simp [Heuristic.bitsGo]

theorem bitsGo_spec (fuel : Nat) :
    ∀ n, n ≤ fuel → n < 2 ^ Heuristic.bitsGo fuel n ∧
      (n ≠ 0 → 2 ^ (Heuristic.bitsGo fuel n - 1) ≤ n) := by
  induction fuel with
  | zero =>
    intro n hn
    have : n = 0 := by omega
    subst this
    simp [Heuristic.bitsGo]
  | succ fuel ih =>
    intro n hn
    by_cases h0 : n = 0
    · subst h0
      simp [Heuristic.bitsGo]
    · obtain ⟨h1, h2⟩ := ih (n / 2) (by omega)
      simp only [Heuristic.bitsGo, if_neg h0, Nat.add_sub_cancel]
      refine ⟨by rw [pow_succ]; omega, fun _ => ?_⟩
      by_cases hh : n / 2 = 0
      · rw [hh, bitsGo_zero]
        simp only [pow_zero]
        omega
      · have h3 := h2 hh
        have hb : Heuristic.bitsGo fuel (n / 2) ≠ 0 := by
          intro hb
          rw [hb] at h1
          simp only [pow_zero] at h1
          omega
        obtain ⟨b, hb'⟩ := Nat.exists_eq_succ_of_ne_zero hb
        rw [hb'] at h3 ⊢
        simp only [Nat.succ_eq_add_one, Nat.add_sub_cancel] at h3
        rw [pow_succ]
        omega

theorem bits_lt (n : Nat) : n < 2 ^ Heuristic.bits n := (bitsGo_spec n n le_rfl).1

theorem bits_le (n : Nat) (h : n ≠ 0) : 2 ^ (Heuristic.bits n - 1) ≤ n :=
  (bitsGo_spec n n le_rfl).2 h

theorem bits_le_of_lt (n k : Nat) (h : n < 2 ^ k) : Heuristic.bits n ≤ k := by
  by_cases h0 : n = 0
  · subst h0
    simp [Heuristic.bits, bitsGo_zero]
  · have h1 := bits_le n h0
    have h2 : 2 ^ (Heuristic.bits n - 1) < 2 ^ k := lt_of_le_of_lt h1 h
    have h3 := (Nat.pow_lt_pow_iff_right (by norm_num : 1 < 2)).1 h2
    omega

theorem sqrtBits_spec (n : Nat) (b : Nat) :
    ∀ r, r * r ≤ n → n < (r + 2 ^ b) * (r + 2 ^ b) →
      Heuristic.sqrtBits n b r * Heuristic.sqrtBits n b r ≤ n ∧
        n < (Heuristic.sqrtBits n b r + 1) * (Heuristic.sqrtBits n b r + 1) := by
  induction b with
  | zero =>
    intro r h1 h2
    simpa [Heuristic.sqrtBits] using And.intro h1 h2
  | succ b ih =>
    intro r h1 h2
    unfold Heuristic.sqrtBits
    split
    · rename_i hle
      refine ih _ hle ?_
      have : r + 2 ^ b + 2 ^ b = r + 2 ^ (b + 1) := by rw [pow_succ]; omega
      rw [this]
      exact h2
    · rename_i hlt
      exact ih _ h1 (by omega)

/-- A number of at most 53 significant bits is a double. -/
theorem roundDouble_exact (n t : Nat) (hd : 2 ^ t ∣ n) (hlt : n < 2 ^ (53 + t)) :
    Heuristic.roundDouble n = n := by
  have he : Heuristic.bits n - 53 ≤ t := by
    have := bits_le_of_lt n _ hlt
    omega
  have hdvd : 2 ^ (Heuristic.bits n - 53) ∣ n := dvd_trans (pow_dvd_pow 2 he) hd
  have hmod : n % 2 ^ (Heuristic.bits n - 53) = 0 := Nat.mod_eq_zero_of_dvd hdvd
  have hpos : 0 < 2 ^ (Heuristic.bits n - 53) := by positivity
  unfold Heuristic.roundDouble
  simp only [hmod, Nat.mul_zero]
  rw [if_neg (by omega)]
  exact Nat.div_mul_cancel hdvd

/-- Rounding a number below `2 ^ 57` moves it by at most 8. -/
theorem roundDouble_near (n : Nat) (h : n < 2 ^ 57) :
    n ≤ Heuristic.roundDouble n + 8 ∧ Heuristic.roundDouble n ≤ n + 8 := by
  have he : Heuristic.bits n - 53 ≤ 4 := by
    have := bits_le_of_lt n 57 h
    omega
  unfold Heuristic.roundDouble
  generalize Heuristic.bits n - 53 = e at he
  interval_cases e <;> simp only [] <;> norm_num <;> split_ifs <;> omega

/-- The double nearest to `sqrt n`: its numerator `m` over `2 ^ f` lies within
one half of the scaled root. -/
theorem sqrtDouble_near (n f : Nat) (hn : n ≠ 0) (hx : n * 2 ^ (2 * f) < 2 ^ 53 * 2 ^ 53)
    (hf : 52 - (Heuristic.bits n - 1) / 2 = f) :
    (Heuristic.sqrtDouble n).2 = f ∧
    (Heuristic.sqrtDouble n).1 * (Heuristic.sqrtDouble n).1 + 1 ≤
      n * 2 ^ (2 * f) + (Heuristic.sqrtDouble n).1 ∧
    n * 2 ^ (2 * f) ≤
      (Heuristic.sqrtDouble n).1 * (Heuristic.sqrtDouble n).1 + (Heuristic.sqrtDouble n).1 ∧
    (Heuristic.sqrtDouble n).1 ≤ 2 ^ 53 ∧
    (∀ c, n * 2 ^ (2 * f) = c * c → (Heuristic.sqrtDouble n).1 = c) := by
  unfold Heuristic.sqrtDouble
  simp only [hf]
  generalize hX : n * 2 ^ (2 * f) = X at hx
  obtain ⟨h1, h2⟩ := sqrtBits_spec X 53 0 (by simp) (by simpa using hx)
  generalize Heuristic.sqrtBits X 53 0 = s at h1 h2
  have hXpos : 0 < X := by
    rw [← hX]
    have : 0 < 2 ^ (2 * f) := by positivity
    exact Nat.mul_pos (Nat.pos_of_ne_zero hn) this
  have hs0 : s ≠ 0 := by
    intro h
    subst h
    simp at h2
    omega
  have hs53 : s < 2 ^ 53 := by
    by_contra hge
    push_neg at hge
    have := Nat.mul_le_mul hge hge
    omega
  have hexp : (s + 1) * (s + 1) = s * s + 2 * s + 1 := by ring
  rw [hexp] at h2
  refine ⟨trivial, ?_⟩
  split
  · rename_i hlt
    have hexp2 : (s + 1) * (s + 1) = s * s + 2 * s + 1 := by ring
    rw [hexp2]
    refine ⟨by omega, by omega, by omega, ?_⟩
    intro c hc
    have hc1 : s < c := by
      by_contra hle
      push_neg at hle
      have := Nat.mul_le_mul hle hle
      omega
    have hc2 : c < s + 1 := by
      by_contra hle
      push_neg at hle
      have := Nat.mul_le_mul hle hle
      rw [hexp2] at this
      omega
    omega
  · rename_i hlt
    refine ⟨by omega, by omega, by omega, ?_⟩
    intro c hc
    have hc1 : s ≤ c := by
      by_contra hle
      push_neg at hle
      have : c + 1 ≤ s := hle
      have := Nat.mul_le_mul this this
      have hexp3 : (c + 1) * (c + 1) = c * c + 2 * c + 1 := by ring
      omega
    have hc2 : c < s + 1 := by
      by_contra hle
      push_neg at hle
      have := Nat.mul_le_mul hle hle
      omega
    omega

theorem ten_dvd_of_sq (k n : Nat) (h : k * k = 100 * n) : 10 ∣ k := by
  have h2 : 2 ∣ k := by
    have : 2 ∣ k * k := ⟨50 * n, by omega⟩
    exact ((Nat.Prime.dvd_mul Nat.prime_two).1 this).elim id id
  have h5 : 5 ∣ k := by
    have : 5 ∣ k * k := ⟨20 * n, by omega⟩
    exact ((Nat.Prime.dvd_mul Nat.prime_five).1 this).elim id id
  exact Nat.Coprime.mul_dvd_of_dvd_of_dvd (by norm_num) h2 h5

/-- Below `2 ^ 44` the rounded product `10 * sqrt n`, cut to an integer, is
the floor of the square root of `100 * n`. -/
theorem sqrtDouble_times_ten (n k : Nat) (hn : n < 2 ^ 44) (hk : k * k ≤ 100 * n)
    (hk' : 100 * n < (k + 1) * (k + 1)) :
    Heuristic.roundDouble (10 * (Heuristic.sqrtDouble n).1) / 2 ^ (Heuristic.sqrtDouble n).2
      = k := by
  by_cases hn0 : n = 0
  · subst hn0
    have hk0 : k = 0 := by
      by_contra h
      have : 1 ≤ k := Nat.pos_of_ne_zero h
      have := Nat.mul_le_mul this this
      omega
    subst hk0
    decide!
  -- the exponent
  have hb1 : n < 2 ^ Heuristic.bits n := bits_lt n
  have hb2 : 2 ^ (Heuristic.bits n - 1) ≤ n := bits_le n hn0
  have hb3 : Heuristic.bits n ≤ 44 := bits_le_of_lt n 44 hn
  have hb4 : Heuristic.bits n ≠ 0 := by
    intro h
    rw [h] at hb1
    simp at hb1
    exact hn0 hb1
  obtain ⟨j, hj⟩ : ∃ j, j = (Heuristic.bits n - 1) / 2 := ⟨_, rfl⟩
  obtain ⟨f, hf⟩ : ∃ f, f = 52 - j := ⟨_, rfl⟩
  have hj21 : j ≤ 21 := by omega
  have hP1 : 2 ^ j * 2 ^ j ≤ n := by
    rw [← pow_add]
    refine le_trans (Nat.pow_le_pow_right (by norm_num) ?_) hb2
    omega
  have hP2 : n < 4 * (2 ^ j * 2 ^ j) := by
    have h4 : 4 * (2 ^ j * 2 ^ j) = 2 ^ (2 + (j + j)) := by
      rw [pow_add, pow_add]
      norm_num
    rw [h4]
    refine lt_of_lt_of_le hb1 (Nat.pow_le_pow_right (by norm_num) ?_)
    omega
  have hTP : 2 ^ f * 2 ^ j = 2 ^ 52 := by
    rw [← pow_add]
    congr 1
    omega
  have hP21 : 2 ^ j ≤ 2 ^ 21 := Nat.pow_le_pow_right (by norm_num) hj21
  have hTT : 2 ^ (2 * f) = 2 ^ f * 2 ^ f := by
    rw [two_mul, pow_add]
  generalize 2 ^ j = P at hP1 hP2 hTP hP21
  have hPpos : 0 < P := by
    rcases Nat.eq_zero_or_pos P with h | h
    · subst h
      simp at hTP
    · exact h
  -- the scaled radicand
  have hX : n * 2 ^ (2 * f) < 2 ^ 53 * 2 ^ 53 := by
    rw [hTT]
    have h1 : n * (2 ^ f * 2 ^ f) < 4 * (P * P) * (2 ^ f * 2 ^ f) :=
      Nat.mul_lt_mul_of_pos_right hP2 (by positivity)
    have h2 : 4 * (P * P) * (2 ^ f * 2 ^ f) = 4 * ((2 ^ f * P) * (2 ^ f * P)) := by ring
    rw [h2, hTP] at h1
    have h3 : 4 * ((2 : Nat) ^ 52 * 2 ^ 52) = 2 ^ 53 * 2 ^ 53 := by norm_num
    rw [h3] at h1
    exact h1
  obtain ⟨hfe, hm1, hm2, hm3, hm4⟩ :=
    sqrtDouble_near n f hn0 hX (by rw [hf, hj])
  rw [hfe]
  generalize (Heuristic.sqrtDouble n).1 = m at hm1 hm2 hm3 hm4
  rw [hTT] at hm1 hm2 hm4
  generalize hT : 2 ^ f = T at hTP hm1 hm2 hm4
  have hTpos : 0 < T := by rw [← hT]; positivity
  -- the size of `k`
  have hk20 : k + 1 ≤ 20 * P := by
    by_contra hlt
    push_neg at hlt
    have : 20 * P ≤ k := by omega
    have h1 := Nat.mul_le_mul this this
    have h2 : 20 * P * (20 * P) = 100 * (4 * (P * P)) := by ring
    omega
  have hT1024 : 1024 * P ≤ T := by
    have h1 : 1024 * P * P ≤ T * P := by
      rw [hTP]
      have := Nat.mul_le_mul hP21 hP21
      have h2 : 1024 * P * P = 1024 * (P * P) := by ring
      rw [h2]
      have h3 : (2 : Nat) ^ 52 = 1024 * (2 ^ 21 * 2 ^ 21) := by norm_num
      rw [h3]
      exact Nat.mul_le_mul_left _ this
    exact Nat.le_of_mul_le_mul_right h1 hPpos
  have hT51 : 51 * (k + 1) ≤ T := by omega
  by_cases hsq : k * k = 100 * n
  · -- a perfect square: every step is exact
    obtain ⟨c, hc⟩ := ten_dvd_of_sq k n hsq
    subst hc
    have hnc : n = c * c := by
      have : 10 * c * (10 * c) = 100 * (c * c) := by ring
      omega
    have hmc : m = c * T := hm4 (c * T) (by rw [hnc]; ring)
    have hexact : Heuristic.roundDouble (10 * m) = 10 * c * T := by
      rw [hmc]
      have h1 : 10 * (c * T) = 10 * c * T := by ring
      rw [h1]
      refine roundDouble_exact (10 * c * T) f ?_ ?_
      · rw [hT]
        exact Dvd.intro_left _ rfl
      · rw [pow_add, hT]
        refine Nat.mul_lt_mul_of_pos_right ?_ hTpos
        have : (20 : Nat) * 2 ^ 21 < 2 ^ 53 := by norm_num
        omega
    rw [hexact]
    exact Nat.mul_div_cancel _ hTpos
  · -- otherwise the root is far enough from the integers next to it
    have hR := roundDouble_near (10 * m) (by
      have : (10 : Nat) * 2 ^ 53 < 2 ^ 57 := by norm_num
      omega)
    generalize Heuristic.roundDouble (10 * m) = R at hR
    have hk1 : k * k + 1 ≤ 100 * n := by omega
    have hTT51 : 51 * ((k + 1) * T) ≤ T * T := by
      have := Nat.mul_le_mul_right T hT51
      calc 51 * ((k + 1) * T) = 51 * (k + 1) * T := by ring
        _ ≤ T * T := this
    have hlow : k * T + 8 ≤ 10 * m := by
      by_contra hlt
      push_neg at hlt
      have hle : 10 * m ≤ k * T + 7 := by omega
      have h1 := Nat.mul_le_mul hle hle
      have h2 := Nat.mul_le_mul_right (T * T) hk1
      have e1 : (k * k + 1) * (T * T) = k * T * (k * T) + T * T := by ring
      have e2 : 100 * n * (T * T) = 100 * (n * (T * T)) := by ring
      have e3 : 10 * m * (10 * m) = 100 * (m * m) := by ring
      have e4 : (k * T + 7) * (k * T + 7) = k * T * (k * T) + 14 * (k * T) + 49 := by ring
      have e5 : 51 * ((k + 1) * T) = 51 * (k * T) + 51 * T := by ring
      rw [e1, e2] at h2
      rw [e3, e4] at h1
      rw [e5] at hTT51
      omega
    have hup : 10 * m + 8 < (k + 1) * T := by
      by_contra hge
      push_neg at hge
      have h2 := Nat.mul_le_mul_right (T * T) hk'
      have e1 : (k + 1) * (k + 1) * (T * T) = (k + 1) * T * ((k + 1) * T) := by ring
      have e2 : (100 * n + 1) * (T * T) = 100 * (n * (T * T)) + T * T := by ring
      have h2' : 100 * (n * (T * T)) + T * T ≤ (k + 1) * T * ((k + 1) * T) := by
        have h3 : (100 * n + 1) * (T * T) ≤ (k + 1) * (k + 1) * (T * T) :=
          Nat.mul_le_mul_right (T * T) hk'
        rw [e1, e2] at h3
        exact h3
      have hUT : T ≤ (k + 1) * T := Nat.le_mul_of_pos_left T (by omega)
      generalize (k + 1) * T = U at hge hTT51 h2' hUT
      have h1 := Nat.mul_le_mul hge hge
      have e3 : (10 * m + 8) * (10 * m + 8) = 100 * (m * m) + 160 * m + 64 := by ring
      rw [e3] at h1
      have ha : 10 * m ≤ U + 4 := by
        by_contra hgt
        push_neg at hgt
        obtain ⟨d, hd⟩ : ∃ d, 10 * m = d + 5 := ⟨10 * m - 5, by omega⟩
        have h5 : U ≤ d := by omega
        have h6 := Nat.mul_le_mul h5 h5
        have e6 : 100 * (m * m) = 10 * m * (10 * m) := by ring
        have e7 : (d + 5) * (d + 5) = d * d + 10 * d + 25 := by ring
        rw [hd, e7] at e6
        omega
      omega
    exact Nat.div_eq_of_lt_le (by omega) (by
      have : (k + 1) * T = k.succ * T := rfl
      omega)

theorem getDelta_comm (a b : Vec2i) : Heuristic.getDelta a b = Heuristic.getDelta b a := by
  unfold Heuristic.getDelta
  rw [abs_sub_comm a.x b.x, abs_sub_comm a.y b.y]

theorem euclideanDouble_comm (a b : Vec2i) :
    Heuristic.euclideanDouble a b = Heuristic.euclideanDouble b a := by
  unfold Heuristic.euclideanDouble
  rw [getDelta_comm]

theorem euclideanDouble_self (a : Vec2i) : Heuristic.euclideanDouble a a = 0 := by
  unfold Heuristic.euclideanDouble Heuristic.getDelta
  simp only [sub_self, abs_zero]
  decide!

/-- While `dx ^ 2 + dy ^ 2` stays below `2 ^ 44` the double computation gives
the floor of the square root of `100 * (dx ^ 2 + dy ^ 2)`. -/
theorem euclideanDouble_eq (a b : Vec2i)
    (h : (a.x - b.x).natAbs ^ 2 + (a.y - b.y).natAbs ^ 2 < 2 ^ 44) :
    Heuristic.euclideanDouble a b =
      Heuristic.isqrt (100 * ((a.x - b.x).natAbs ^ 2 + (a.y - b.y).natAbs ^ 2)) := by
  have hsq : ∀ z : Int, (|z| ^ 2).toNat = z.natAbs ^ 2 := by
    intro z
    rw [sq_abs]
    have h1 : z ^ 2 = ((z.natAbs : Nat) : Int) ^ 2 := (Int.natAbs_sq _).symm
    rw [h1]
    exact_mod_cast Int.toNat_natCast _
  unfold Heuristic.euclideanDouble Heuristic.getDelta
  simp only [hsq]
  generalize (a.x - b.x).natAbs ^ 2 = A at h
  generalize (a.y - b.y).natAbs ^ 2 = B at h
  have h53 : (2 : Nat) ^ 44 < 2 ^ (53 + 0) := by norm_num
  rw [roundDouble_exact A 0 (by simp) (by omega), roundDouble_exact B 0 (by simp) (by omega),
    roundDouble_exact (A + B) 0 (by simp) (by omega)]
  exact sqrtDouble_times_ten (A + B) _ h (isqrt_spec _).1 (isqrt_spec _).2

/-! ## The scan on the scores of the machine -/

/-- The scan on wrapped scores is the scan on the heap whose nodes carry the
wrapped score as their cost. -/
theorem scanOpen32_eq (heap : Nat → Node) (l : List Nat) :
    ∀ (it : Nat) (best : Nat × Nat),
      scanOpen32 heap l it best =
        scanOpen (fun p => { heap p with G := (heap p).getScore32, H := 0 }) l it best := by
  induction l with
  | nil => intro it best; rfl
  | cons a rest ih =>
    intro it best
    simp only [scanOpen32, scanOpen, Node.getScore, Nat.add_zero]
    split
    · exact ih _ _
    · exact ih _ _

theorem scanOpen32_first (heap : Nat → Node) (first : Nat) (rest : List Nat) :
    (∀ x ∈ first :: rest,
        (heap (scanOpen32 heap (first :: rest) 0 (first, 0)).1).getScore32 ≤
          (heap x).getScore32) ∧
      ∃ pre post,
        first :: rest = pre ++ (scanOpen32 heap (first :: rest) 0 (first, 0)).1 :: post ∧
        (scanOpen32 heap (first :: rest) 0 (first, 0)).2 = pre.length ∧
        ∀ x ∈ post,
          (heap (scanOpen32 heap (first :: rest) 0 (first, 0)).1).getScore32 <
            (heap x).getScore32 := by
  have h := scanOpen_first (fun p => { heap p with G := (heap p).getScore32, H := 0 })
    first rest
  rw [← scanOpen32_eq] at h
  simpa [Node.getScore] using h

/-- The three ways a turn of the loop can go, on the scores of the machine. -/
theorem turn32_cases (g : Generator) (target : Vec2i) (s : Search) :
    (s.openSet = [] ∧ turn32 g target s = .exit s) ∨
    ∃ b pre post, s.openSet = pre ++ b :: post ∧
      (∀ x ∈ s.openSet, (s.heap b).getScore32 ≤ (s.heap x).getScore32) ∧
      (∀ x ∈ post, (s.heap b).getScore32 < (s.heap x).getScore32) ∧
      (((s.heap b).coordinates = target ∧
          turn32 g target s = .exit { s with current := some b }) ∨
        ((s.heap b).coordinates ≠ target ∧
          turn32 g target s = .again (expand g target b
            { s with
              current := some b
              closedSet := s.closedSet ++ [b]
              openSet := pre ++ post }))) := by
  cases hop : s.openSet with
  | nil => left; exact ⟨rfl, by simp [turn32, hop]⟩
  | cons first rest =>
    right
    obtain ⟨hmin, pre, post, hl, hidx, hlt⟩ := scanOpen32_first s.heap first rest
    refine ⟨(scanOpen32 s.heap (first :: rest) 0 (first, 0)).1, pre, post, hl, hmin, hlt, ?_⟩
    by_cases hc :
        (s.heap (scanOpen32 s.heap (first :: rest) 0 (first, 0)).1).coordinates = target
    · left
      exact ⟨hc, by simp [turn32, hop, hc]⟩
    · right
      refine ⟨hc, ?_⟩
      have he : (first :: rest).eraseIdx (scanOpen32 s.heap (first :: rest) 0 (first, 0)).2 =
          pre ++ post := by
        rw [hidx]
        conv_lhs => rw [hl]
        exact eraseIdx_append_cons pre _ post
      simp [turn32, hop, hc, he]

/-- While no score reaches `2 ^ 32` the two scans agree. -/
theorem scanOpen32_small (heap : Nat → Node) (l : List Nat) :
    ∀ (it : Nat) (best : Nat × Nat),
      (∀ x ∈ l, (heap x).G + (heap x).H < 2 ^ 32) →
      (heap best.1).G + (heap best.1).H < 2 ^ 32 →
      scanOpen32 heap l it best = scanOpen heap l it best := by
  induction l with
  | nil => intro it best _ _; rfl
  | cons a rest ih =>
    intro it best hl hb
    have ha : (heap a).G + (heap a).H < 2 ^ 32 := hl a (List.mem_cons_self _ _)
    have hrest : ∀ x ∈ rest, (heap x).G + (heap x).H < 2 ^ 32 :=
      fun x hx => hl x (List.mem_cons_of_mem _ hx)
    simp only [scanOpen32, scanOpen, Node.getScore32, Node.getScore,
      Nat.mod_eq_of_lt ha, Nat.mod_eq_of_lt hb]
    split
    · exact ih _ _ hrest ha
    · exact ih _ _ hrest hb

/-- While no score of the open set reaches `2 ^ 32` a turn on the scores of
the machine is a turn of the model. -/
theorem turn32_small (g : Generator) (target : Vec2i) (s : Search)
    (h : ∀ x ∈ s.openSet, (s.heap x).G + (s.heap x).H < 2 ^ 32) :
    turn32 g target s = turn g target s := by
  cases hop : s.openSet with
  | nil => simp [turn32, turn, hop]
  | cons first rest =>
    rw [hop] at h
    have hs := scanOpen32_small s.heap (first :: rest) 0 (first, 0) h
      (h first (List.mem_cons_self _ _))
    simp only [turn32, turn, hop, hs]

/-! ## The Euclidean heuristic in double arithmetic never exceeds `10 * (dx + dy)` -/

/-- Rounding to the nearest double raises a number by at most one part in `2 ^ 53`. -/
theorem roundDouble_le (n : Nat) :
    2 ^ 53 * Heuristic.roundDouble n ≤ (2 ^ 53 + 1) * n := by
  unfold Heuristic.roundDouble
  simp only []
  by_cases he : Heuristic.bits n - 53 = 0
  · rw [he]
    simp only [pow_zero, Nat.div_one, Nat.mod_one, Nat.mul_zero, Nat.mul_one]
    rw [if_neg (by omega)]
    omega
  · have hn0 : n ≠ 0 := by
      intro h
      subst h
      simp [Heuristic.bits, bitsGo_zero] at he
    have hb := bits_le n hn0
    have hexp : Heuristic.bits n - 1 = 52 + (Heuristic.bits n - 53) := by omega
    rw [hexp, pow_add] at hb
    generalize Heuristic.bits n - 53 = e at he hb
    have hE : 0 < 2 ^ e := by positivity
    have hdm := Nat.div_add_mod n (2 ^ e)
    have hr := Nat.mod_lt n hE
    have hq : 2 ^ 52 ≤ n / 2 ^ e := (Nat.le_div_iff_mul_le hE).2 hb
    have hqE := Nat.mul_le_mul_right (2 ^ e) hq
    generalize n % 2 ^ e = r at hdm hr
    generalize n / 2 ^ e = q at hdm hq hqE
    have hcomm : 2 ^ e * q = q * 2 ^ e := Nat.mul_comm _ _
    rw [hcomm] at hdm
    have hsucc : (q + 1) * 2 ^ e = q * 2 ^ e + 2 ^ e := by ring
    generalize 2 ^ e = E at hE hdm hr hqE hsucc hb
    split
    · rename_i hc
      rw [hsucc]
      have h2 : E ≤ 2 * r := by
        rcases hc with hc | ⟨hc, _⟩
        · omega
        · omega
      generalize q * E = qE at hdm hqE
      omega
    · generalize q * E = qE at hdm hqE
      omega

/-- The radicand scaled for the 53-bit root stays below `2 ^ 106`. -/
theorem sqrtDouble_scaled (n : Nat) (hb : Heuristic.bits n ≤ 105) :
    n * 2 ^ (2 * (52 - (Heuristic.bits n - 1) / 2)) < 2 ^ 53 * 2 ^ 53 := by
  have h1 := bits_lt n
  have h2 : (2 : Nat) ^ 53 * 2 ^ 53 = 2 ^ 106 := by norm_num
  rw [h2]
  have hpos : 0 < 2 ^ (2 * (52 - (Heuristic.bits n - 1) / 2)) := by positivity
  calc n * 2 ^ (2 * (52 - (Heuristic.bits n - 1) / 2))
      < 2 ^ Heuristic.bits n * 2 ^ (2 * (52 - (Heuristic.bits n - 1) / 2)) :=
        Nat.mul_lt_mul_of_pos_right h1 hpos
    _ = 2 ^ (Heuristic.bits n + 2 * (52 - (Heuristic.bits n - 1) / 2)) := by rw [pow_add]
    _ ≤ 2 ^ 106 := Nat.pow_le_pow_right (by norm_num) (by omega)

/-- The double computation of `10 * sqrt(a^2 + b^2)`, cut to an integer, is at
most `10 * (a + b)` for all `a` and `b` below `2 ^ 32`. -/
theorem sqrtDouble_le_sum (a b : Nat) (ha : a < 2 ^ 32) (hb : b < 2 ^ 32) :
    Heuristic.roundDouble (10 * (Heuristic.sqrtDouble (Heuristic.roundDouble
        (Heuristic.roundDouble (a ^ 2) + Heuristic.roundDouble (b ^ 2)))).1) /
      2 ^ (Heuristic.sqrtDouble (Heuristic.roundDouble
        (Heuristic.roundDouble (a ^ 2) + Heuristic.roundDouble (b ^ 2)))).2
      ≤ 10 * (a + b) := by
  have h1 := roundDouble_le (a ^ 2)
  have h2 := roundDouble_le (b ^ 2)
  have h3 := roundDouble_le (Heuristic.roundDouble (a ^ 2) + Heuristic.roundDouble (b ^ 2))
  generalize Heuristic.roundDouble (a ^ 2) = N₁ at h1 h3
  generalize Heuristic.roundDouble (b ^ 2) = N₂ at h2 h3
  generalize Heuristic.roundDouble (N₁ + N₂) = S at h3
  have hc : a ^ 2 + b ^ 2 ≤ (a + b) * (a + b) := by nlinarith
  have hcc : (a + b) * (a + b) < 2 ^ 33 * 2 ^ 33 :=
    Nat.mul_lt_mul'' (by omega) (by omega)
  generalize hcdef : a + b = c at hc hcc
  have hc33 : c < 2 ^ 33 := by omega
  generalize a ^ 2 = A at h1 hc
  generalize b ^ 2 = B at h2 hc
  have hS : 2 ^ 53 * 2 ^ 53 * S ≤ (2 ^ 53 + 1) * (2 ^ 53 + 1) * (c * c) := by
    generalize c * c = cc at hc hcc
    omega
  by_cases hS0 : S = 0
  · subst hS0
    have : Heuristic.sqrtDouble 0 = (0, 52) := by decide!
    rw [this]
    have h0 : Heuristic.roundDouble (10 * 0) = 0 := by decide!
    simp only [h0]
    simp
  have hS67 : S < 2 ^ 67 := by
    generalize c * c = cc at hS hcc
    omega
  have hbits : Heuristic.bits S ≤ 67 := bits_le_of_lt S 67 hS67
  obtain ⟨f, hf⟩ : ∃ f, 52 - (Heuristic.bits S - 1) / 2 = f := ⟨_, rfl⟩
  have hf19 : 19 ≤ f := by omega
  have hX := sqrtDouble_scaled S (by omega)
  rw [hf] at hX
  obtain ⟨hfe, hm1, hm2, hm3, _⟩ := sqrtDouble_near S f hS0 hX hf
  rw [hfe]
  generalize (Heuristic.sqrtDouble S).1 = m at hm1 hm2 hm3
  have hTT : 2 ^ (2 * f) = 2 ^ f * 2 ^ f := by rw [two_mul, pow_add]
  rw [hTT] at hm1 hm2
  have hT19 : 2 ^ 19 ≤ 2 ^ f := Nat.pow_le_pow_right (by norm_num) hf19
  generalize 2 ^ f = T at hm1 hm2 hT19
  have hTpos : 0 < T := by omega
  have hm0 : m ≠ 0 := by
    intro h
    subst h
    have : 0 < S * (T * T) := Nat.mul_pos (Nat.pos_of_ne_zero hS0) (Nat.mul_pos hTpos hTpos)
    omega
  obtain ⟨d, hd⟩ : ∃ d, 2 * m = d + 1 := ⟨2 * m - 1, by omega⟩
  have hdd : d * d + 3 ≤ 4 * (S * (T * T)) := by
    have e1 : (d + 1) * (d + 1) = d * d + 2 * d + 1 := by ring
    have e2 : 2 * m * (2 * m) = 4 * (m * m) := by ring
    rw [hd, e1] at e2
    omega
  -- the scaled root is at most `(1 + 2 ^ (-53)) * c * T`
  have hroot : 2 ^ 53 * d ≤ 2 * (2 ^ 53 + 1) * (c * T) := by
    refine Nat.mul_self_le_mul_self_iff.1 ?_
    have e1 : 2 ^ 53 * d * (2 ^ 53 * d) = 2 ^ 53 * 2 ^ 53 * (d * d) := by ring
    have e2 : 2 * (2 ^ 53 + 1) * (c * T) * (2 * (2 ^ 53 + 1) * (c * T)) =
        4 * ((2 ^ 53 + 1) * (2 ^ 53 + 1) * (c * c) * (T * T)) := by ring
    rw [e1, e2]
    have h4 : 2 ^ 53 * 2 ^ 53 * (d * d) ≤ 2 ^ 53 * 2 ^ 53 * (4 * (S * (T * T))) :=
      Nat.mul_le_mul_left _ (by omega)
    have h5 : 2 ^ 53 * 2 ^ 53 * (4 * (S * (T * T))) = 4 * (2 ^ 53 * 2 ^ 53 * S * (T * T)) := by
      ring
    have h6 : 2 ^ 53 * 2 ^ 53 * S * (T * T) ≤
        (2 ^ 53 + 1) * (2 ^ 53 + 1) * (c * c) * (T * T) := Nat.mul_le_mul_right _ hS
    omega
  have hP := roundDouble_le (10 * m)
  generalize Heuristic.roundDouble (10 * m) = P at hP
  have hcT : c * T ≤ 2 ^ 33 * T := Nat.mul_le_mul_right T (by omega)
  have hgoal : P < (10 * c + 1) * T := by
    have e : (10 * c + 1) * T = 10 * (c * T) + T := by ring
    rw [e]
    generalize c * T = cT at hroot hcT
    omega
  exact Nat.lt_succ_iff.1 ((Nat.div_lt_iff_lt_mul hTpos).2 hgoal)

/-- In double arithmetic the Euclidean estimate is at most `10 * (dx + dy)`
whenever `dx` and `dy` are below `2 ^ 32`. -/
theorem euclideanDouble_le_minCostFour (a b : Vec2i)
    (hx : (a.x - b.x).natAbs < 2 ^ 32) (hy : (a.y - b.y).natAbs < 2 ^ 32) :
    Heuristic.euclideanDouble a b ≤ minCostFour a b := by
  have hsq : ∀ z : Int, (|z| ^ 2).toNat = z.natAbs ^ 2 := by
    intro z
    rw [sq_abs]
    have h1 : z ^ 2 = ((z.natAbs : Nat) : Int) ^ 2 := (Int.natAbs_sq _).symm
    rw [h1]
    exact_mod_cast Int.toNat_natCast _
  unfold Heuristic.euclideanDouble Heuristic.getDelta minCostFour
  simp only [hsq]
  exact sqrtDouble_le_sum _ _ hx hy

/-! ## Heuristics that agree on the passable cells -/

/-- C11. Passability classification: for every world size `(w, h)`, obstacle
list and coordinate `c`, `detectCollision(c)` is true if and only if `c.x < 0`
or `c.x >= w` or `c.y < 0` or `c.y >= h` or `c` is a member of the obstacle
list. -/
theorem detectCollision_iff (width height : Int) (diagonal : Bool)
    (heuristic : Vec2i → Vec2i → Nat) (obstacles : List Vec2i) (c : Vec2i) :
    (configure width height diagonal heuristic obstacles).detectCollision c = true ↔
      c.x < 0 ∨ c.x ≥ width ∨ c.y < 0 ∨ c.y ≥ height ∨ c ∈ obstacles := by
  rw [configure_eq]
  simp only [Generator.detectCollision, Bool.or_eq_true, decide_eq_true_eq,
    List.contains_eq_any_beq, List.any_eq_true, beq_iff_eq]
  constructor
  · rintro ((((h | h) | h) | h) | ⟨x, hx, rfl⟩)
    · exact Or.inl h
    · exact Or.inr (Or.inl h)
    · exact Or.inr (Or.inr (Or.inl h))
    · exact Or.inr (Or.inr (Or.inr (Or.inl h)))
    · exact Or.inr (Or.inr (Or.inr (Or.inr hx)))
  · rintro (h | h | h | h | h)
    · exact Or.inl (Or.inl (Or.inl (Or.inl h)))
    · exact Or.inl (Or.inl (Or.inl (Or.inr h)))
    · exact Or.inl (Or.inl (Or.inr h))
    · exact Or.inl (Or.inr h)
    · exact Or.inr ⟨c, h, rfl⟩

/-- C18 as stated fails. On a 3x3 world with 4-directional movement and the
Euclidean heuristic, in the search from (0,0) to (429496729,0), the second turn
of the loop finds two nodes in the open set: one on (0,1) with
`G + H = 10 + 4294967290`, which the machine wraps to the score 4, and one on
(1,0) with `G + H = 10 + 4294967280`.  The node on (0,1) is chosen and moved to
the closed set, though its `G + H` is the greater one. -/
theorem turn32_beyond_least_sum :
    turn32 wrapGenerator ⟨429496729, 0⟩ (initial ⟨0, 0⟩) = .again wrapState ∧
    wrapState.openSet = [1, 2] ∧
    (wrapState.heap 1).coordinates = ⟨0, 1⟩ ∧
    (wrapState.heap 1).G + (wrapState.heap 1).H = 4294967300 ∧
    (wrapState.heap 1).getScore32 = 4 ∧
    (wrapState.heap 2).coordinates = ⟨1, 0⟩ ∧
    (wrapState.heap 2).G + (wrapState.heap 2).H = 4294967290 ∧
    (wrapState.heap 2).getScore32 = 4294967290 ∧
    (turn32 wrapGenerator ⟨429496729, 0⟩ wrapState).state.current = some 1 ∧
    (turn32 wrapGenerator ⟨429496729, 0⟩ wrapState).state.closedSet = [0, 1] :=
  ⟨by rfl, by decide!⟩

/-- C18, amended. Selection and tie-break: in every iteration with a non-empty
open set, the node chosen has the least score of the open set, the score being
the value of `getScore`, the sum `G + H` reduced modulo `2 ^ 32`; every node
behind it in the open set has a strictly greater score, so that among the
nodes of least score it is the last one; and the turn goes on with this node:
it ends the loop on it or moves it to the closed set and expands it.  When
`G + H` is below `2 ^ 32` for every node of the open set, the chosen node has
the least sum `G + H`, every node behind it has a strictly greater sum, and the
turn is the turn of the model without wrapping. -/
theorem turn32_selects_last_least (g : Generator) (target : Vec2i) (s : Search)
    (hne : s.openSet ≠ []) :
    ∃ b pre post, s.openSet = pre ++ b :: post ∧
      (∀ x ∈ s.openSet, (s.heap b).getScore32 ≤ (s.heap x).getScore32) ∧
      (∀ x ∈ post, (s.heap b).getScore32 < (s.heap x).getScore32) ∧
      (turn32 g target s = .exit { s with current := some b } ∨
        turn32 g target s = .again (expand g target b
          { s with
            current := some b
            closedSet := s.closedSet ++ [b]
            openSet := pre ++ post })) ∧
      ((∀ x ∈ s.openSet, (s.heap x).G + (s.heap x).H < 2 ^ 32) →
        (∀ x ∈ s.openSet, (s.heap b).G + (s.heap b).H ≤ (s.heap x).G + (s.heap x).H) ∧
        (∀ x ∈ post, (s.heap b).G + (s.heap b).H < (s.heap x).G + (s.heap x).H) ∧
        turn32 g target s = turn g target s) := by
  rcases turn32_cases g target s with ⟨ho, _⟩ | ⟨b, pre, post, hop, hmin, hlt, hcase⟩
  · exact absurd ho hne
  · refine ⟨b, pre, post, hop, hmin, hlt, ?_, ?_⟩
    · rcases hcase with ⟨_, he⟩ | ⟨_, he⟩
      · exact Or.inl he
      · exact Or.inr he
    · intro hsmall
      have hb : b ∈ s.openSet := by rw [hop]; simp
      have hpost : ∀ x ∈ post, x ∈ s.openSet := by
        intro x hx
        rw [hop]
        simp [hx]
      refine ⟨?_, ?_, turn32_small g target s hsmall⟩
      · intro x hx
        have h := hmin x hx
        unfold Node.getScore32 at h
        rwa [Nat.mod_eq_of_lt (hsmall b hb), Nat.mod_eq_of_lt (hsmall x hx)] at h
      · intro x hx
        have h := hlt x hx
        unfold Node.getScore32 at h
        rwa [Nat.mod_eq_of_lt (hsmall b hb), Nat.mod_eq_of_lt (hsmall x (hpost x hx))] at h

/-- After the first turn of a search from (0,0) to (2,2) around a wall at (1,1)
the open set holds two nodes of equal score, and the second one is chosen. -/
theorem turn32_selects_last_least_witness :
    sampleState.openSet ≠ [] ∧
    ∃ b pre post, sampleState.openSet = pre ++ b :: post ∧
      (∀ x ∈ sampleState.openSet,
        (sampleState.heap b).getScore32 ≤ (sampleState.heap x).getScore32) ∧
      (∀ x ∈ post, (sampleState.heap b).getScore32 < (sampleState.heap x).getScore32) ∧
      (turn32 sampleGenerator ⟨2, 2⟩ sampleState = .exit { sampleState with current := some b } ∨
        turn32 sampleGenerator ⟨2, 2⟩ sampleState = .again (expand sampleGenerator ⟨2, 2⟩ b
          { sampleState with
            current := some b
            closedSet := sampleState.closedSet ++ [b]
            openSet := pre ++ post })) ∧
      ((∀ x ∈ sampleState.openSet,
          (sampleState.heap x).G + (sampleState.heap x).H < 2 ^ 32) →
        (∀ x ∈ sampleState.openSet,
          (sampleState.heap b).G + (sampleState.heap b).H ≤
            (sampleState.heap x).G + (sampleState.heap x).H) ∧
        (∀ x ∈ post,
          (sampleState.heap b).G + (sampleState.heap b).H <
            (sampleState.heap x).G + (sampleState.heap x).H) ∧
        turn32 sampleGenerator ⟨2, 2⟩ sampleState = turn sampleGenerator ⟨2, 2⟩ sampleState) :=
  ⟨by decide!, turn32_selects_last_least sampleGenerator ⟨2, 2⟩ sampleState (by decide!)⟩

/-- In double arithmetic `euclidean((5973245,1093),(0,0))` is 59732451, while
the floor of the square root of `100 * (5973245^2 + 1093^2)` is 59732450: the
true root lies below 59732451 by less than the rounding of the product. -/
theorem euclideanDouble_above_floor :
    Heuristic.euclideanDouble ⟨5973245, 1093⟩ ⟨0, 0⟩ = 59732451 ∧
    Nat.sqrt (100 * (5973245 ^ 2 + 1093 ^ 2)) = 59732450 ∧
    (5973245 : Nat) ^ 2 + 1093 ^ 2 < 2 ^ 53 :=
  ⟨by decide!, (Nat.eq_sqrt.2 ⟨by norm_num, by norm_num⟩).symm, by norm_num⟩

/-- C13. Heuristic formulas: with `dx = |ax - bx|` and `dy = |ay - by|`,
`manhattan(a,b) = 10 * (dx + dy)`; the integer `octagonal` computes before its
conversion to unsigned is never negative and `octagonal(a,b) =
10 * (dx + dy) - 6 * min(dx, dy)`; `euclidean(a,b)`, computed in double
arithmetic, is the floor of the square root of `100 * (dx^2 + dy^2)` as long
as `dx^2 + dy^2 < 2^44`, and with an exact square root it is so for all
`a` and `b`; each of the three is symmetric in `a` and `b` and is 0 when
`a = b`. -/
theorem heuristic_formulas (a b : Vec2i) :
    Heuristic.manhattan a b = 10 * ((a.x - b.x).natAbs + (a.y - b.y).natAbs) ∧
    0 ≤ 10 * ((Heuristic.getDelta a b).x + (Heuristic.getDelta a b).y) +
      (-6) * min (Heuristic.getDelta a b).x (Heuristic.getDelta a b).y ∧
    Heuristic.octagonal a b = 10 * ((a.x - b.x).natAbs + (a.y - b.y).natAbs) -
      6 * min (a.x - b.x).natAbs (a.y - b.y).natAbs ∧
    ((a.x - b.x).natAbs ^ 2 + (a.y - b.y).natAbs ^ 2 < 2 ^ 44 →
      Heuristic.euclideanDouble a b =
        Nat.sqrt (100 * ((a.x - b.x).natAbs ^ 2 + (a.y - b.y).natAbs ^ 2))) ∧
    Heuristic.euclidean a b =
      Nat.sqrt (100 * ((a.x - b.x).natAbs ^ 2 + (a.y - b.y).natAbs ^ 2)) ∧
    (Heuristic.manhattan a b = Heuristic.manhattan b a ∧
      Heuristic.euclideanDouble a b = Heuristic.euclideanDouble b a ∧
      Heuristic.euclidean a b = Heuristic.euclidean b a ∧
      Heuristic.octagonal a b = Heuristic.octagonal b a) ∧
    (Heuristic.manhattan a a = 0 ∧ Heuristic.euclideanDouble a a = 0 ∧
      Heuristic.euclidean a a = 0 ∧ Heuristic.octagonal a a = 0) := by
  have hE : ∀ p q : Vec2i, Heuristic.euclidean p q =
      Heuristic.isqrt (100 * ((p.x - q.x).natAbs ^ 2 + (p.y - q.y).natAbs ^ 2)) := by
    intro p q
    unfold Heuristic.euclidean Heuristic.getDelta
    simp only [sq_abs]
    congr 2
    have h1 : (p.x - q.x) ^ 2 = (((p.x - q.x).natAbs : Nat) : Int) ^ 2 :=
      (Int.natAbs_sq _).symm
    have h2 : (p.y - q.y) ^ 2 = (((p.y - q.y).natAbs : Nat) : Int) ^ 2 :=
      (Int.natAbs_sq _).symm
    rw [h1, h2]
    exact_mod_cast Int.toNat_natCast _
  have hM : ∀ p q : Vec2i,
      Heuristic.manhattan p q = 10 * ((p.x - q.x).natAbs + (p.y - q.y).natAbs) :=
    fun p q => manhattan_minCostFour p q
  have hO : ∀ p q : Vec2i, Heuristic.octagonal p q =
      10 * ((p.x - q.x).natAbs + (p.y - q.y).natAbs) -
        6 * min (p.x - q.x).natAbs (p.y - q.y).natAbs := by
    intro p q
    have h := octagonal_eq p q
    simp only [abs_eq_max_neg] at h
    omega
  have hxs : (a.x - b.x).natAbs = (b.x - a.x).natAbs := by omega
  have hys : (a.y - b.y).natAbs = (b.y - a.y).natAbs := by omega
  refine ⟨hM a b, ?_, hO a b, ?_, ?_, ⟨?_, euclideanDouble_comm a b, ?_, ?_⟩,
    manhattan_self a, euclideanDouble_self a, euclidean_self a, octagonal_self a⟩
  · unfold Heuristic.getDelta
    simp only [abs_eq_max_neg]
    omega
  · intro h
    rw [euclideanDouble_eq a b h, isqrt_eq_sqrt]
  · rw [hE, isqrt_eq_sqrt]
  · rw [hM a b, hM b a, hxs, hys]
  · rw [hE a b, hE b a, hxs, hys]
  · rw [hO a b, hO b a, hxs, hys]

/-- After `k` removals of `c` the obstacle list holds `c` as many times as
before, less `k`. -/
theorem removeCollisionTimes_count (g : Generator) (c : Vec2i) (k : Nat) :
    (g.removeCollisionTimes c k).walls.count c = g.walls.count c - k := by
  induction k with
  | zero => rfl
  | succ n ih =>
    simp only [Generator.removeCollisionTimes, Generator.removeCollision,
      List.count_erase_self, ih]
    omega

/-- Removals change nothing but the obstacle list. -/
theorem removeCollisionTimes_worldSize (g : Generator) (c : Vec2i) (k : Nat) :
    (g.removeCollisionTimes c k).worldSize = g.worldSize := by
  induction k with
  | zero => rfl
  | succ n ih => simpa [Generator.removeCollisionTimes, Generator.removeCollision] using ih

/-- C15. `removeCollision(c)` leaves the obstacle list unchanged when `c` is
absent, and otherwise deletes exactly the first occurrence of `c`, keeping every
other entry and its order; it changes nothing else.  Each `addCollision(c)` adds
one occurrence, so after `k` removals `c` is still in the list exactly when it
occurred more than `k` times: it is then still classified as blocked, and a
coordinate inside the world is unblocked only by as many removals as it has
occurrences, or by `clearCollisions`, which empties the list. -/
theorem removeCollision_first (g : Generator) (c : Vec2i) :
    (c ∉ g.walls → (g.removeCollision c).walls = g.walls) ∧
    (c ∈ g.walls → ∃ pre post, g.walls = pre ++ c :: post ∧ c ∉ pre ∧
      (g.removeCollision c).walls = pre ++ post) ∧
    ((g.removeCollision c).heuristic = g.heuristic ∧
      (g.removeCollision c).direction = g.direction ∧
      (g.removeCollision c).worldSize = g.worldSize ∧
      (g.removeCollision c).directions = g.directions) ∧
    (g.addCollision c).walls.count c = g.walls.count c + 1 ∧
    (∀ k, c ∈ (g.removeCollisionTimes c k).walls ↔ k < g.walls.count c) ∧
    (∀ k, k < g.walls.count c → (g.removeCollisionTimes c k).detectCollision c = true) ∧
    (∀ k, 0 ≤ c.x → c.x < g.worldSize.x → 0 ≤ c.y → c.y < g.worldSize.y →
      ((g.removeCollisionTimes c k).detectCollision c = false ↔ g.walls.count c ≤ k)) ∧
    g.clearCollisions.walls = [] ∧
    (0 ≤ c.x → c.x < g.worldSize.x → 0 ≤ c.y → c.y < g.worldSize.y →
      g.clearCollisions.detectCollision c = false) := by
  have hmem : ∀ k, c ∈ (g.removeCollisionTimes c k).walls ↔ k < g.walls.count c := by
    intro k
    rw [← List.count_pos_iff, removeCollisionTimes_count]
    omega
  refine ⟨?_, ?_, ⟨rfl, rfl, rfl, rfl⟩, ?_, hmem, ?_, ?_, rfl, ?_⟩
  · intro h
    exact List.erase_of_not_mem h
  · intro h
    obtain ⟨pre, post, h1, h2, h3⟩ := List.exists_erase_eq h
    exact ⟨pre, post, h2, h1, h3⟩
  · simp [Generator.addCollision]
  · intro k hk
    have := (hmem k).2 hk
    simp [Generator.detectCollision, this]
  · intro k h1 h2 h3 h4
    rw [detectCollision_false, removeCollisionTimes_worldSize, hmem]
    constructor
    · rintro ⟨_, _, _, _, h⟩
      omega
    · intro h
      exact ⟨h1, h2, h3, h4, by omega⟩
  · intro h1 h2 h3 h4
    rw [detectCollision_false]
    exact ⟨h1, h2, h3, h4, by simp [Generator.clearCollisions]⟩

/-- C20. Diagonal steps cut corners. With diagonal movement enabled the pass
of the loop over a diagonal direction looks only at the cell it leads to: if
that cell is passable and on neither list, a node is made for it, with the
current node as parent and `G` larger by 14, whatever holds of the two cells
next to both. So with any of the three heuristics, on any world with any
obstacles, `findPath` from a cell to a passable diagonal neighbour returns the
two of them; and on a 25 by 25 grid with obstacles at (1,0) and (0,1),
`findPath((0,0),(1,1))` returns [(1,1),(0,0)] with each heuristic, the
Euclidean one with an exact square root or in double arithmetic. -/
theorem diagonal_cuts_corners :
    (∀ (width height : Int) (heuristic : Vec2i → Vec2i → Nat) (obstacles : List Vec2i)
      (target : Vec2i) (cur : Nat) (s : Search) (i : Nat), 4 ≤ i → i < 8 →
      (configure width height true heuristic obstacles).detectCollision
        ((s.heap cur).coordinates + (configure width height true heuristic obstacles).dir i)
          = false →
      (∀ q ∈ s.closedSet, (s.heap q).coordinates ≠
        (s.heap cur).coordinates + (configure width height true heuristic obstacles).dir i) →
      (∀ q ∈ s.openSet, (s.heap q).coordinates ≠
        (s.heap cur).coordinates + (configure width height true heuristic obstacles).dir i) →
      visit (configure width height true heuristic obstacles) target cur s i =
        { s with
          heap := Function.update s.heap s.next
            { G := (s.heap cur).G + 14
              H := heuristic ((s.heap cur).coordinates +
                (configure width height true heuristic obstacles).dir i) target
              coordinates := (s.heap cur).coordinates +
                (configure width height true heuristic obstacles).dir i
              parent := some cur }
          next := s.next + 1
          openSet := s.openSet ++ [s.next] }) ∧
    (∀ (width height : Int) (heuristic : Vec2i → Vec2i → Nat) (obstacles : List Vec2i)
      (c d : Vec2i),
      heuristic = Heuristic.manhattan ∨ heuristic = Heuristic.euclidean ∨
        heuristic = Heuristic.octagonal →
      (d.x = 1 ∨ d.x = -1) → (d.y = 1 ∨ d.y = -1) →
      (configure width height true heuristic obstacles).detectCollision (c + d) = false →
      Returns (configure width height true heuristic obstacles) c (c + d) [c + d, c]) ∧
    Returns (configure 25 25 true Heuristic.manhattan [⟨1, 0⟩, ⟨0, 1⟩]) ⟨0, 0⟩ ⟨1, 1⟩
      [⟨1, 1⟩, ⟨0, 0⟩] ∧
    Returns (configure 25 25 true Heuristic.euclidean [⟨1, 0⟩, ⟨0, 1⟩]) ⟨0, 0⟩ ⟨1, 1⟩
      [⟨1, 1⟩, ⟨0, 0⟩] ∧
    Returns (configure 25 25 true Heuristic.octagonal [⟨1, 0⟩, ⟨0, 1⟩]) ⟨0, 0⟩ ⟨1, 1⟩
      [⟨1, 1⟩, ⟨0, 0⟩] ∧
    Returns (configure 25 25 true Heuristic.euclideanDouble [⟨1, 0⟩, ⟨0, 1⟩]) ⟨0, 0⟩ ⟨1, 1⟩
      [⟨1, 1⟩, ⟨0, 0⟩] := by
  have hpath : ∀ (width height : Int) (heuristic : Vec2i → Vec2i → Nat)
      (obstacles : List Vec2i) (c d : Vec2i),
      heuristic = Heuristic.manhattan ∨ heuristic = Heuristic.euclidean ∨
        heuristic = Heuristic.octagonal →
      (d.x = 1 ∨ d.x = -1) → (d.y = 1 ∨ d.y = -1) →
      (configure width height true heuristic obstacles).detectCollision (c + d) = false →
      Returns (configure width height true heuristic obstacles) c (c + d) [c + d, c] := by
    intro width height heuristic obstacles c d hh hx hy hpass
    have hg := configure_eq width height true heuristic obstacles
    obtain ⟨_, _, _, _, h4, h5, h6, h7⟩ :=
      dir_table (configure width height true heuristic obstacles) (by rw [hg])
    have hn : (configure width height true heuristic obstacles).directions = 8 := by
      rw [hg]; rfl
    have hheur : (configure width height true heuristic obstacles).heuristic = heuristic := by
      rw [hg]
    obtain ⟨i, hi, hd⟩ : ∃ i, i < 8 ∧
        (configure width height true heuristic obstacles).dir i = d := by
      rcases d with ⟨dx, dy⟩
      simp only at hx hy
      rcases hx with rfl | rfl <;> rcases hy with rfl | rfl
      · exact ⟨5, by omega, h5⟩
      · exact ⟨7, by omega, h7⟩
      · exact ⟨6, by omega, h6⟩
      · exact ⟨4, by omega, h4⟩
    have hcd : c + d ≠ c := by
      intro he
      have := congrArg Vec2i.x he
      rw [Vec2i.add_x] at this
      omega
    rw [← hd] at hpass hcd ⊢
    refine adjacent_direct _ c i (by rw [hn]; exact hi) hpass hcd ?_ ?_
    · rw [hheur]
      rcases hh with rfl | rfl | rfl
      · exact manhattan_self _
      · exact euclidean_self _
      · exact octagonal_self _
    · intro v hv
      rw [hheur]
      rcases hh with rfl | rfl | rfl
      · exact manhattan_far _ _ hv
      · exact euclidean_far _ _ hv
      · exact octagonal_far _ _ hv
  refine ⟨?_, hpath, ?_, ?_, ?_, returns_of_findPath _ _ _ 3 _ (by decide!)⟩
  · intro width height heuristic obstacles target cur s i h4 _ hpass hcl hop
    have hm : moveCost i = 14 := by
      unfold moveCost
      rw [if_neg (by omega)]
    have hheur : (configure width height true heuristic obstacles).heuristic = heuristic := by
      rw [configure_eq]
    rcases visit_cases (configure width height true heuristic obstacles) target cur s i with
      ⟨_, hc | ⟨q, hq, hqc⟩⟩ | ⟨_, _, _, hv⟩ | ⟨_, _, p, hp, hpc, _⟩ | ⟨_, _, p, hp, hpc, _⟩
    · rw [hpass] at hc; cases hc
    · exact absurd hqc (hcl q hq)
    · rw [hv, hm, hheur]
    · exact absurd hpc (hop p hp)
    · exact absurd hpc (hop p hp)
  · have h := hpath 25 25 Heuristic.manhattan [⟨1, 0⟩, ⟨0, 1⟩] ⟨0, 0⟩ ⟨1, 1⟩ (Or.inl rfl)
      (Or.inl rfl) (Or.inl rfl) (by decide)
    exact h
  · have h := hpath 25 25 Heuristic.euclidean [⟨1, 0⟩, ⟨0, 1⟩] ⟨0, 0⟩ ⟨1, 1⟩
      (Or.inr (Or.inl rfl)) (Or.inl rfl) (Or.inl rfl) (by decide)
    exact h
  · have h := hpath 25 25 Heuristic.octagonal [⟨1, 0⟩, ⟨0, 1⟩] ⟨0, 0⟩ ⟨1, 1⟩
      (Or.inr (Or.inr rfl)) (Or.inl rfl) (Or.inl rfl) (by decide)
    exact h

/-- C9 as stated fails: with 8-directional movement the Manhattan estimate from
(0,0) to (1,1) is 20, more than the minimal cost 14, and the Euclidean estimate
from (0,0) to (8,8) is 113, in double arithmetic as with an exact square root,
more than the minimal cost 112. -/
theorem heuristic_not_admissible_eight :
    ¬ Heuristic.manhattan ⟨0, 0⟩ ⟨1, 1⟩ ≤ minCostEight ⟨0, 0⟩ ⟨1, 1⟩ ∧
    ¬ Heuristic.euclidean ⟨0, 0⟩ ⟨8, 8⟩ ≤ minCostEight ⟨0, 0⟩ ⟨8, 8⟩ ∧
    Heuristic.euclideanDouble ⟨0, 0⟩ ⟨8, 8⟩ = 113 ∧
    ¬ Heuristic.euclideanDouble ⟨0, 0⟩ ⟨8, 8⟩ ≤ minCostEight ⟨0, 0⟩ ⟨8, 8⟩ :=
  ⟨by decide, by decide!, by decide!, by decide!⟩

/-- C9, amended. For all coordinates `a` and `b`, the Manhattan and octagonal
estimates never exceed `10 * (dx + dy)`, nor does the Euclidean estimate, as
the source computes it in double arithmetic, for all `dx` and `dy` below
`2 ^ 32`, nor the Euclidean estimate with an exact square root; and the
octagonal estimate never exceeds
`14 * min(dx,dy) + 10 * (max(dx,dy) - min(dx,dy))`.  These bounds are true
lower bounds: each of the estimates is at most the cost of every 4-directional
route from `a` to `b`, and the octagonal estimate is at most the cost of every
route from `a` to `b` in either movement mode. -/
theorem heuristic_admissible (a b : Vec2i) :
    Heuristic.manhattan a b ≤ minCostFour a b ∧
    ((a.x - b.x).natAbs < 2 ^ 32 → (a.y - b.y).natAbs < 2 ^ 32 →
      Heuristic.euclideanDouble a b ≤ minCostFour a b) ∧
    Heuristic.euclidean a b ≤ minCostFour a b ∧
    Heuristic.octagonal a b ≤ minCostFour a b ∧
    Heuristic.octagonal a b ≤ minCostEight a b ∧
    (∀ (width height : Int) (heuristic : Vec2i → Vec2i → Nat) (obstacles : List Vec2i)
        (l : List Vec2i) (c : Nat),
      Route (configure width height false heuristic obstacles) a (b :: l) c →
        Heuristic.manhattan a b ≤ c ∧
        ((a.x - b.x).natAbs < 2 ^ 32 → (a.y - b.y).natAbs < 2 ^ 32 →
          Heuristic.euclideanDouble a b ≤ c) ∧
        Heuristic.euclidean a b ≤ c ∧
        Heuristic.octagonal a b ≤ c) ∧
    (∀ (width height : Int) (diagonal : Bool) (heuristic : Vec2i → Vec2i → Nat)
        (obstacles : List Vec2i) (l : List Vec2i) (c : Nat),
      Route (configure width height diagonal heuristic obstacles) a (b :: l) c →
        Heuristic.octagonal a b ≤ c) := by
  have hcongr : ∀ (width height : Int) (diagonal : Bool) (f f' : Vec2i → Vec2i → Nat)
      (obstacles : List Vec2i) l c,
      Route (configure width height diagonal f obstacles) a l c →
        Route (configure width height diagonal f' obstacles) a l c := by
    intro width height diagonal f f' obstacles l c h
    refine Route.congr _ _ a l c h ?_ ?_ ?_ ?_ <;> simp [configure_eq]
  have hbound : ∀ (width height : Int) (diagonal : Bool) (f f' : Vec2i → Vec2i → Nat)
      (obstacles : List Vec2i) l c,
      (f' = Heuristic.octagonal ∨
        (diagonal = false ∧ (f' = Heuristic.manhattan ∨ f' = Heuristic.euclidean))) →
      Route (configure width height diagonal f obstacles) a (b :: l) c →
        f' a b ≤ c + f' b b := by
    intro width height diagonal f f' obstacles l c hf h
    have := Route.lower_bound _ a b
      (configure_consistent width height diagonal f' obstacles b hf) _ c
      (hcongr width height diagonal f f' obstacles _ c h) b rfl
    simpa [configure_eq] using this
  refine ⟨le_of_eq (manhattan_minCostFour a b),
    fun hx hy => euclideanDouble_le_minCostFour a b hx hy, euclidean_le_minCostFour a b,
    octagonal_le_minCostFour a b, le_of_eq (octagonal_minCostEight a b), ?_, ?_⟩
  · intro width height heuristic obstacles l c h
    have h1 := hbound width height false heuristic Heuristic.manhattan obstacles l c
      (Or.inr ⟨rfl, Or.inl rfl⟩) h
    have h2 := hbound width height false heuristic Heuristic.euclidean obstacles l c
      (Or.inr ⟨rfl, Or.inr rfl⟩) h
    have h3 := hbound width height false heuristic Heuristic.octagonal obstacles l c
      (Or.inl rfl) h
    rw [manhattan_self] at h1
    rw [euclidean_self] at h2
    rw [octagonal_self] at h3
    refine ⟨h1, fun hx hy => ?_, h2, h3⟩
    have h4 := euclideanDouble_le_minCostFour a b hx hy
    rw [← manhattan_minCostFour] at h4
    exact le_trans h4 h1
  · intro width height diagonal heuristic obstacles l c h
    have h3 := hbound width height diagonal heuristic Heuristic.octagonal obstacles l c
      (Or.inl rfl) h
    rw [octagonal_self] at h3
    exact h3

end AStar
